import Mathlib

/-!
# Verification of the gitree filtered directory-tree traversal

A shallow embedding of the gitree repository's core traversal and rendering
logic, together with proofs of the behavioural properties stated in its
specification.

Embedded source files:
* `src/gitree/services/list_enteries.py` (`list_entries`)
* `src/gitree/utilities/gitignore.py` (`GitIgnoreMatcher`)
* `src/gitree/utilities/utils.py` (`iter_dir`, `matches_extra`, `matches_file_type`)
* `src/gitree/services/draw_tree.py` (`draw_tree.rec`, `print_summary.count`)
* `src/gitree/services/zipping_service.py` (`ZippingService.zip_project_to_handle.rec`)
* `src/main.py` (legacy `list_entries`, `zip_project.rec`)

External capabilities (the `pathspec` gitignore matcher and `fnmatch`) are
abstracted as boolean-valued match functions carried in a context structure,
exactly as the specification treats them ("PatternMatcher: external
capability assumed available").
-/

namespace Gitree

/-- Content of a regular file as far as the traversal inspects it:
whether reading it raises `PermissionError`, and its best-effort decoded
text split into lines (`read_text(..., errors="ignore").splitlines()`). -/
structure FileData where
  readable : Bool
  lines : List String
  deriving Repr, DecidableEq

/-- A filesystem node. A directory carries a `listable` flag:
`iter_dir` yields its children when `true` and raises `PermissionError`
(degraded to an empty listing) when `false`. -/
inductive FSNode where
  | file (name : String) (data : FileData)
  | dir (name : String) (listable : Bool) (children : List FSNode)
  deriving Repr

/-- Entry name (`Path.name`). -/
def FSNode.name : FSNode → String
  | .file n _ => n
  | .dir n _ _ => n

/-- `Path.is_file()`. -/
def FSNode.isFile : FSNode → Bool
  | .file _ _ => true
  | .dir _ _ _ => false

/-- `Path.is_dir()`. -/
def FSNode.isDir : FSNode → Bool
  | .file _ _ => false
  | .dir _ _ _ => true

/-- From `src/gitree/utilities/utils.py` `iter_dir`: list a directory's
children, returning the empty list on `PermissionError`. -/
def iterDir : FSNode → List FSNode
  | .file _ _ => []
  | .dir _ listable ch => if listable then ch else []

/-- Python `str.startswith(p)`: `p`'s characters are a prefix of `s`'s.
Character-list based so that closed terms evaluate definitionally. -/
def strStartsWith (s p : String) : Bool := p.data.isPrefixOf s.data

/-- Python `str.lower` (ASCII case mapping). -/
def strToLower (s : String) : String := String.mk (s.data.map Char.toLower)

/-- Python `str.strip()` (default whitespace). -/
def strTrim (s : String) : String :=
  String.mk (((s.data.dropWhile Char.isWhitespace).reverse.dropWhile
    Char.isWhitespace).reverse)

/-- Python slicing `s[1:]`. -/
def strDrop1 (s : String) : String := String.mk (s.data.drop 1)

/-- `Path.relative_to(root).as_posix()` on a non-root path, with the
relative path represented as its list of components. -/
def posix (parts : List String) : String :=
  String.intercalate "/" parts

/-- External matching capabilities and display glyph inputs.
`matchFile pats rel` stands for
`pathspec.PathSpec.from_lines("gitwildmatch", pats).match_file(rel)` and
`fnmatchcase rel pat` for `fnmatch.fnmatchcase(rel, pat)`; both libraries
are external to the repository.  The three emoji strings come from the
repository's `constants.constant` module, which only declares display
icons. -/
structure Ctx where
  matchFile : List String → String → Bool
  fnmatchcase : String → String → Bool
  fileEmoji : String
  emptyDirEmoji : String
  normalDirEmoji : String

/-- From `src/gitree/utilities/gitignore.py` `GitIgnoreMatcher` (the copy in
`src/util/gitignore.py` is line-for-line the same): the root is implicit
because all paths are handled root-relative. -/
structure GitIgnoreMatcher where
  enabled : Bool
  gitignoreDepth : Option Nat

/-- `GitIgnoreMatcher.within_depth`: `len(dirpath.relative_to(root).parts)`
is the length of the component list (`0` for the root itself). -/
def GitIgnoreMatcher.withinDepth (gi : GitIgnoreMatcher) (relParts : List String) : Bool :=
  match gi.gitignoreDepth with
  | none => true
  | some d => relParts.length ≤ d

/-- `GitIgnoreMatcher.is_ignored`. -/
def GitIgnoreMatcher.isIgnored (gi : GitIgnoreMatcher) (ctx : Ctx) (spec : List String)
    (rel : List String) (isDir : Bool) : Bool :=
  if !gi.enabled then false
  else if ctx.matchFile spec (posix rel) then true
  else if isDir && ctx.matchFile spec (posix rel ++ "/") then true
  else false

/-- `pathlib.PurePath.suffix`: the extension of the final component,
empty unless the last `.` has characters both before and after it. -/
def splitLastDot : List Char → Option (List Char × List Char)
  | [] => none
  | c :: rest =>
    match splitLastDot rest with
    | some (b, a) => some (c :: b, a)
    | none => if c = '.' then some ([], rest) else none

/-- `Path(name).suffix`. -/
def pathSuffix (name : String) : String :=
  match splitLastDot name.data with
  | some (b, a) => if !b.isEmpty && !a.isEmpty then String.mk ('.' :: a) else ""
  | none => ""

/-- From `src/gitree/utilities/utils.py` `matches_file_type`. -/
def matchesFileType (e : FSNode) (fileTypes : List String) : Bool :=
  if fileTypes.isEmpty || !e.isFile then false
  else
    let fileExt := strToLower (pathSuffix e.name)
    fileTypes.any fun ft =>
      let n := strToLower ft
      let n := if strStartsWith n "." then n else "." ++ n
      fileExt == n

/-- From `src/gitree/utilities/utils.py` `matches_extra`: gitignore-style
matching of the extra exclude patterns, gated by `exclude_depth`. -/
def matchesExtra (ctx : Ctx) (e : FSNode) (rel : List String) (patterns : List String)
    (ignoreDepth : Option Nat) : Bool :=
  if patterns.isEmpty then false
  else if (match ignoreDepth with
           | some d => decide (rel.length > d)
           | none => false) then false
  else if ctx.matchFile patterns (posix rel) then true
  else if e.isDir && ctx.matchFile patterns (posix rel ++ "/") then true
  else false

/-- The per-entry filter applied by the loop body of
`src/gitree/services/list_enteries.py` `list_entries`: one candidate entry
survives iff none of the exclusion stages drops it and the inclusion
filters (when configured) accept it. -/
def passesFilters (ctx : Ctx) (gi : GitIgnoreMatcher) (spec : List String)
    (parentRel : List String) (showAll : Bool) (extraExcludes : List String)
    (excludeDepth : Option Nat) (noFiles : Bool)
    (includePatterns includeFileTypes : List String) (e : FSNode) : Bool :=
  let rel := parentRel ++ [e.name]
  if !showAll && strStartsWith e.name "." then false
  else if gi.isIgnored ctx spec rel e.isDir then false
  else if matchesExtra ctx e rel extraExcludes excludeDepth then false
  else if noFiles && e.isFile then false
  else if !includePatterns.isEmpty || !includeFileTypes.isEmpty then
    if e.isDir then true
    else
      let m1 := !includePatterns.isEmpty && ctx.matchFile includePatterns (posix rel)
      m1 || (!includeFileTypes.isEmpty && matchesFileType e includeFileTypes)
  else true

/-- The Python sort key `(x.is_file(), x.name.lower())` of
`list_entries`, with `False < True` encoded as `0 < 1`. -/
def entryKeyBase (e : FSNode) : Nat × String :=
  ((if e.isFile then 1 else 0), strToLower e.name)

/-- Modelled from the spec: "Ordering: stable sort by `(is_file,
name.lower())` — directories before files, then case-insensitive
alphabetical — UNLESS `files_first` is configured, in which case the
boolean key is inverted."  The `files_first`-capable `list_entries`
variant called by `src/gitree/services/tree_service.py` is not present
under `src/`; with `filesFirst = false` this is exactly the key of
`src/gitree/services/list_enteries.py`. -/
def entryKey (filesFirst : Bool) (e : FSNode) : Nat × String :=
  ((if (if filesFirst then !e.isFile else e.isFile) then 1 else 0), strToLower e.name)

/-- Strict comparison of characters by code point (structural, so closed
terms evaluate definitionally). -/
def charLtB (a b : Char) : Bool := Nat.blt a.toNat b.toNat

/-- Lexicographic `≤` on character lists by code point: Python's string
comparison. -/
def charListLe : List Char → List Char → Bool
  | [], _ => true
  | _ :: _, [] => false
  | a :: as, b :: bs =>
    if charLtB a b then true
    else if charLtB b a then false
    else charListLe as bs

/-- Python's `≤` on strings. -/
def strLeB (a b : String) : Bool := charListLe a.data b.data

/-- Boolean `≤` on sort keys (lexicographic), the comparison the stable
sort performs. -/
def entryLE (filesFirst : Bool) (a b : FSNode) : Bool :=
  let ka := entryKey filesFirst a
  let kb := entryKey filesFirst b
  decide (ka.1 < kb.1) || (ka.1 == kb.1 && strLeB ka.2 kb.2)

/-- From `src/gitree/services/list_enteries.py` `list_entries`: filter the
children of `node`, stable-sort them by `entryKey`, and apply the
`max_items` truncation, returning the kept entries and the truncated
count.  The `filesFirst` parameter is the spec-modelled key inversion
documented at `entryKey`. -/
def listEntries (ctx : Ctx) (gi : GitIgnoreMatcher) (node : FSNode)
    (parentRel : List String) (spec : List String) (showAll : Bool)
    (extraExcludes : List String) (maxItems : Option Nat)
    (excludeDepth : Option Nat) (noFiles : Bool)
    (includePatterns includeFileTypes : List String) (filesFirst : Bool) :
    List FSNode × Nat :=
  let out := (iterDir node).filter
    (passesFilters ctx gi spec parentRel showAll extraExcludes excludeDepth
      noFiles includePatterns includeFileTypes)
  let out := out.mergeSort (entryLE filesFirst)
  match maxItems with
  | some n => if out.length > n then (out.take n, out.length - n) else (out, 0)
  | none => (out, 0)

/-! ### Tree glyphs

The drawing code imports `BRANCH`, `LAST`, `SPACE`, `VERT` from
`gitree.constants.constant`. -/

/-- Modelled from the spec: branch connector `"├─ "`; the
`gitree/constants/constant.py` module is not present under `src/`. -/
def BRANCH : String := "├─ "

/-- Modelled from the spec: last-item connector `"└─ "`; the
`gitree/constants/constant.py` module is not present under `src/`. -/
def LAST : String := "└─ "

/-- Modelled from the spec: vertical continuation `"│  "`; the
`gitree/constants/constant.py` module is not present under `src/`. -/
def VERT : String := "│  "

/-- Modelled from the spec: blank continuation `"   "`; the
`gitree/constants/constant.py` module is not present under `src/`. -/
def SPACE : String := "   "

/-! ### Gitignore pattern accumulation -/

/-- Python `str.lstrip("/")`. -/
def lstripSlash (s : String) : String :=
  String.mk (s.data.dropWhile (· = '/'))

/-- One iteration of the `.gitignore`-folding loop shared verbatim by
`draw_tree.rec`, `print_summary.count` and
`ZippingService.zip_project_to_handle.rec`: strip the line, drop blanks
and comments, peel a leading `!`, prefix with the directory's root-relative
path, and re-attach the negation. -/
def parseGitignoreLine (prefixPath : String) (line : String) : Option String :=
  let line := strTrim line
  if line.data.isEmpty || strStartsWith line "#" then none
  else
    let neg := strStartsWith line "!"
    let pat := if neg then strDrop1 line else line
    let pat := prefixPath ++ lstripSlash pat
    some (if neg then "!" ++ pat else pat)

/-- `(dirpath / ".gitignore").is_file()` plus access to the file's data:
a direct stat of the child path, independent of whether the directory
itself can be listed. -/
def gitignoreChild : FSNode → Option FileData
  | .file _ _ => none
  | .dir _ _ ch => ch.findSome? fun c =>
      match c with
      | .file n d => if n == ".gitignore" then some d else none
      | .dir _ _ _ => none

/-- The gitignore-extension step at the top of each recursive visit:
if gitignore respecting is on and the directory is within depth and a
`.gitignore` file exists there, append its parsed patterns.  Reading an
unreadable `.gitignore` raises `PermissionError`, which the source does
not catch — modelled as `Except.error`. -/
def extendPatterns (respectGitignore : Bool) (gi : GitIgnoreMatcher) (node : FSNode)
    (relParts : List String) (patterns : List String) : Except Unit (List String) :=
  if respectGitignore && gi.withinDepth relParts then
    match gitignoreChild node with
    | some d =>
      if d.readable then
        let prefixPath := if relParts.isEmpty then "" else posix relParts ++ "/"
        .ok (patterns ++ d.lines.filterMap (parseGitignoreLine prefixPath))
      else .error ()
    | none => .ok patterns
  else .ok patterns

/-! ### Whitelist filtering -/

/-- `str(entry.absolute())` with the root's absolute path given by its
component list (so the string is `"/" + "/".join(rootParts ++ rel)`). -/
def absStr (rootParts rel : List String) : String :=
  "/" ++ posix (rootParts ++ rel)

/-- The whitelist check shared by `draw_tree.rec` and
`ZippingService.zip_project_to_handle.rec`: a file must be a member of the
whitelist, a directory must be a string prefix of some whitelisted path. -/
def whitelistKeep (rootParts : List String) (whitelist : Option (List String))
    (rel : List String) (e : FSNode) : Bool :=
  match whitelist with
  | none => true
  | some wl =>
    let entryPath := absStr rootParts rel
    if e.isFile then wl.contains entryPath
    else if e.isDir then wl.any fun f => strStartsWith f entryPath
    else true

/-! ### Termination measure for the traversals -/

mutual
/-- Size of a node, for termination of the traversals. -/
def weightNode : FSNode → Nat
  | .file _ _ => 1
  | .dir _ _ ch => 1 + weightList ch

/-- Size of a list of nodes. -/
def weightList : List FSNode → Nat
  | [] => 0
  | e :: r => weightNode e + weightList r + 1
end

theorem weightList_perm {l₁ l₂ : List FSNode} (h : l₁.Perm l₂) :
    weightList l₁ = weightList l₂ := by
  induction h with
  | nil => rfl
  | cons x _ ih => simp [weightList, ih]
  | swap x y l => simp [weightList]; omega
  | trans _ _ ih₁ ih₂ => omega

theorem weightList_sublist {l₁ l₂ : List FSNode} (h : l₁.Sublist l₂) :
    weightList l₁ ≤ weightList l₂ := by
  induction h with
  | slnil => exact Nat.le_refl _
  | cons a _ ih => simp [weightList]; omega
  | cons₂ a _ ih => simp [weightList]; omega

theorem weightList_filter_le (p : FSNode → Bool) (l : List FSNode) :
    weightList (l.filter p) ≤ weightList l :=
  weightList_sublist (List.filter_sublist l)

theorem weightList_take_le (n : Nat) (l : List FSNode) :
    weightList (l.take n) ≤ weightList l :=
  weightList_sublist (List.take_sublist n l)

theorem weightList_iterDir_lt (node : FSNode) :
    weightList (iterDir node) < weightNode node := by
  cases node with
  | file n d => simp [iterDir, weightNode, weightList]
  | dir n listable ch =>
    simp only [iterDir, weightNode]
    cases listable
    · simp [weightList]
    · simp [weightList]

theorem weightList_listEntries_le (ctx : Ctx) (gi : GitIgnoreMatcher) (node : FSNode)
    (parentRel spec : List String) (showAll : Bool) (extraExcludes : List String)
    (maxItems excludeDepth : Option Nat) (noFiles : Bool)
    (includePatterns includeFileTypes : List String) (filesFirst : Bool) :
    weightList (listEntries ctx gi node parentRel spec showAll extraExcludes maxItems
      excludeDepth noFiles includePatterns includeFileTypes filesFirst).1 ≤
      weightList (iterDir node) := by
  have key : ∀ (l : List FSNode) (mi : Option Nat),
      weightList (match mi with
        | some n => if l.length > n then (l.take n, l.length - n) else (l, 0)
        | none => (l, 0)).1 ≤ weightList l := by
    intro l mi
    cases mi with
    | none => exact Nat.le_refl _
    | some n =>
      by_cases h : l.length > n
      · simp only [if_pos h]
        exact weightList_take_le n l
      · simp only [if_neg h]
        exact Nat.le_refl _
  unfold listEntries
  exact le_trans (key _ _)
    (le_trans (Nat.le_of_eq (weightList_perm (List.mergeSort_perm _ _)))
      (weightList_filter_le _ _))

theorem weightList_mainTrunc_le (l : List FSNode) (mi : Option Nat) :
    weightList (match mi with
      | some n => if l.length > n then (l.take n, l.length - n) else (l, 0)
      | none => (l, 0)).1 ≤ weightList l := by
  cases mi with
  | none => exact Nat.le_refl _
  | some n =>
    by_cases h : l.length > n
    · simp only [if_pos h]
      exact weightList_take_le n l
    · simp only [if_neg h]
      exact Nat.le_refl _

/-! ### The tree renderer (`src/gitree/services/draw_tree.py` `draw_tree.rec`) -/

/-- All arguments of `draw_tree` that stay fixed through the recursion,
plus `rootParts`, the component list of the root's absolute path (used for
the whitelist's absolute-path string comparisons). -/
structure DrawCfg where
  rootParts : List String
  depth : Option Nat
  showAll : Bool
  extraExcludes : List String
  respectGitignore : Bool
  gitignoreDepth : Option Nat
  maxItems : Option Nat
  excludeDepth : Option Nat
  noFiles : Bool
  emoji : Bool
  whitelist : Option (List String)
  includePatterns : List String
  includeFileTypes : List String

/-- `GitIgnoreMatcher(root, enabled=respect_gitignore, gitignore_depth=...)`. -/
def DrawCfg.gi (cfg : DrawCfg) : GitIgnoreMatcher :=
  ⟨cfg.respectGitignore, cfg.gitignoreDepth⟩

/-- The icon chosen when emoji rendering is active: `FILE_EMOJI` for files,
`EMPTY_DIR_EMOJI` for an empty directory, `NORMAL_DIR_EMOJI` otherwise,
with a `PermissionError` during the emptiness probe degrading to
`NORMAL_DIR_EMOJI`. -/
def emojiStr (ctx : Ctx) : FSNode → String
  | .file _ _ => ctx.fileEmoji
  | .dir _ listable ch =>
    if listable then (if ch.isEmpty then ctx.emptyDirEmoji else ctx.normalDirEmoji)
    else ctx.normalDirEmoji

/-- The text printed for one visited entry.  In
`src/gitree/services/draw_tree.py` the `emoji` flag is inverted: `true`
prints the plain line, `false` adds the icon. -/
def entryLine (ctx : Ctx) (emoji : Bool) (pre connector : String) (e : FSNode) : String :=
  let suffix := if e.isDir then "/" else ""
  if emoji then pre ++ connector ++ e.name ++ suffix
  else pre ++ connector ++ emojiStr ctx e ++ " " ++ e.name ++ suffix

/-- The truncation marker `prefix + LAST + f"... and {truncated} more items"`. -/
def truncLine (pre : String) (truncated : Nat) : String :=
  pre ++ LAST ++ "... and " ++ toString truncated ++ " more items"

/-- One element of the rendered output: a printed line tagged with its
provenance — either a real entry (with its depth and root-relative path)
or the synthetic truncation marker. -/
inductive RItem where
  | entry (depth : Nat) (rel : List String) (node : FSNode) (line : String)
  | trunc (count : Nat) (line : String)

/-- The printed text of a render item. -/
def RItem.line : RItem → String
  | .entry _ _ _ l => l
  | .trunc _ l => l

/-- `true` when the depth limit stops the recursion:
`depth is not None and current_depth >= depth`. -/
def depthStop (depth : Option Nat) (currentDepth : Nat) : Bool :=
  match depth with
  | some d => decide (currentDepth ≥ d)
  | none => false

mutual
/-- From `src/gitree/services/draw_tree.py` `draw_tree.rec`: the recursive
body for one directory — depth cutoff, gitignore extension, `list_entries`
filtering, whitelist pruning, then the child loop (`drawChildren`). -/
def drawRec (ctx : Ctx) (cfg : DrawCfg) (node : FSNode) (relParts : List String)
    (pre : String) (currentDepth : Nat) (patterns : List String) :
    Except Unit (List RItem) :=
  if depthStop cfg.depth currentDepth then .ok []
  else
    match extendPatterns cfg.respectGitignore cfg.gi node relParts patterns with
    | .error er => .error er
    | .ok pats =>
      let p := listEntries ctx cfg.gi node relParts pats cfg.showAll cfg.extraExcludes
        cfg.maxItems cfg.excludeDepth cfg.noFiles cfg.includePatterns
        cfg.includeFileTypes false
      let entries := p.1.filter fun e =>
        whitelistKeep cfg.rootParts cfg.whitelist (relParts ++ [e.name]) e
      drawChildren ctx cfg entries relParts pre currentDepth pats p.2
termination_by (weightNode node, 1)
decreasing_by
  apply Prod.Lex.left
  exact lt_of_le_of_lt
    (le_trans (weightList_filter_le _ _)
      (weightList_listEntries_le _ _ _ _ _ _ _ _ _ _ _ _ _))
    (weightList_iterDir_lt node)

/-- The `for i, entry in enumerate(entries)` loop of `draw_tree.rec`
followed by the truncation-marker print: emits the entry's line, recurses
into directories with the extended prefix, and appends the truncation line
after the last entry when items were hidden. -/
def drawChildren (ctx : Ctx) (cfg : DrawCfg) (entries : List FSNode)
    (relParts : List String) (pre : String) (currentDepth : Nat)
    (patterns : List String) (truncated : Nat) : Except Unit (List RItem) :=
  match entries with
  | [] => .ok (if truncated > 0 then [.trunc truncated (truncLine pre truncated)] else [])
  | e :: rest =>
    match (if e.isDir then
        drawRec ctx cfg e (relParts ++ [e.name])
          (pre ++ (if rest.isEmpty && truncated == 0 then SPACE else VERT))
          (currentDepth + 1) patterns
      else .ok []) with
    | .error er => .error er
    | .ok sub =>
      match drawChildren ctx cfg rest relParts pre currentDepth patterns truncated with
      | .error er => .error er
      | .ok tail =>
        .ok (.entry currentDepth (relParts ++ [e.name]) e
          (entryLine ctx cfg.emoji pre
            (if rest.isEmpty && truncated == 0 then LAST else BRANCH) e) :: (sub ++ tail))
termination_by (weightList entries, 0)
decreasing_by
  all_goals
    apply Prod.Lex.left
    simp only [weightList]
    omega
end

/-! ### The zip renderer (`src/gitree/services/zipping_service.py`
`ZippingService.zip_project_to_handle.rec`) -/

/-- The constructor arguments of `ZippingService` together with the
keyword arguments of `zip_project_to_handle` that stay fixed through its
recursion.  `zipResolved` is `export_zip_resolved = zipPath.resolve()` as
an absolute component list; `rootParts` plays the same role as in
`DrawCfg`. -/
structure ZipCfg where
  rootParts : List String
  respectGitignore : Bool
  gitignoreDepth : Option Nat
  depth : Option Nat
  excludeDepth : Option Nat
  showAll : Bool
  extraExcludes : List String
  noFiles : Bool
  whitelist : Option (List String)
  includePatterns : List String
  includeFileTypes : List String
  zipResolved : List String

/-- `GitIgnoreMatcher(root, enabled=self.respect_gitignore, gitignore_depth=...)`. -/
def ZipCfg.gi (zcfg : ZipCfg) : GitIgnoreMatcher :=
  ⟨zcfg.respectGitignore, zcfg.gitignoreDepth⟩

mutual
/-- From `src/gitree/services/zipping_service.py`
`ZippingService.zip_project_to_handle.rec`: the result collects the
root-relative component lists of the files written into the archive, in
write order (each file `entry` is written under
`arcname = entry.relative_to(root).as_posix()`, optionally prefixed). -/
def zipRec (ctx : Ctx) (zcfg : ZipCfg) (node : FSNode) (relParts : List String)
    (recDepth : Nat) (patterns : List String) : Except Unit (List (List String)) :=
  if depthStop zcfg.depth recDepth then .ok []
  else
    match extendPatterns zcfg.respectGitignore zcfg.gi node relParts patterns with
    | .error er => .error er
    | .ok pats =>
      let p := listEntries ctx zcfg.gi node relParts pats zcfg.showAll zcfg.extraExcludes
        none zcfg.excludeDepth zcfg.noFiles zcfg.includePatterns zcfg.includeFileTypes false
      zipChildren ctx zcfg p.1 relParts recDepth pats
termination_by (weightNode node, 1)
decreasing_by
  apply Prod.Lex.left
  exact lt_of_le_of_lt (weightList_listEntries_le _ _ _ _ _ _ _ _ _ _ _ _ _)
    (weightList_iterDir_lt node)

/-- The `for entry in entries` loop of `zip_project_to_handle.rec`:
skip the entry whose resolved path equals the output zip's resolved path
(logging a warning), apply the whitelist, recurse into directories, and
write files. -/
def zipChildren (ctx : Ctx) (zcfg : ZipCfg) (entries : List FSNode)
    (relParts : List String) (recDepth : Nat) (patterns : List String) :
    Except Unit (List (List String)) :=
  match entries with
  | [] => .ok []
  | e :: rest =>
    if zcfg.rootParts ++ (relParts ++ [e.name]) = zcfg.zipResolved then
      zipChildren ctx zcfg rest relParts recDepth patterns
    else if !whitelistKeep zcfg.rootParts zcfg.whitelist (relParts ++ [e.name]) e then
      zipChildren ctx zcfg rest relParts recDepth patterns
    else if e.isDir then
      match zipRec ctx zcfg e (relParts ++ [e.name]) (recDepth + 1) patterns with
      | .error er => .error er
      | .ok sub =>
        match zipChildren ctx zcfg rest relParts recDepth patterns with
        | .error er => .error er
        | .ok tail => .ok (sub ++ tail)
    else
      match zipChildren ctx zcfg rest relParts recDepth patterns with
      | .error er => .error er
      | .ok tail => .ok ((relParts ++ [e.name]) :: tail)
termination_by (weightList entries, 0)
decreasing_by
  all_goals
    apply Prod.Lex.left
    simp only [weightList]
    omega
end

/-- `arcname = entry.relative_to(root).as_posix()`, prefixed with
`arcname_prefix + "/"` when the prefix is non-empty. -/
def arcnameOf (arcnamePrefix : String) (rel : List String) : String :=
  if arcnamePrefix.data.isEmpty then posix rel else arcnamePrefix ++ "/" ++ posix rel

/-! ### The summary mode (`src/gitree/services/draw_tree.py`
`print_summary.count`) -/

/-- The arguments of `print_summary` that stay fixed through `count`. -/
structure SummaryCfg where
  respectGitignore : Bool
  gitignoreDepth : Option Nat
  extraExcludes : List String
  includePatterns : List String
  includeFileTypes : List String

/-- `GitIgnoreMatcher(root, enabled=respect_gitignore, gitignore_depth=...)`. -/
def SummaryCfg.gi (scfg : SummaryCfg) : GitIgnoreMatcher :=
  ⟨scfg.respectGitignore, scfg.gitignoreDepth⟩

mutual
/-- From `src/gitree/services/draw_tree.py` `print_summary.count`: the
sequence of `(current_depth, root-relative path, entry)` observations the
summary accumulates into its per-level dirs/files counters.  `count`
always calls `list_entries` with `show_all=False`, `max_items=None`,
`exclude_depth=None`, `no_files=False`, and has no depth cutoff of its
own. -/
def summaryRec (ctx : Ctx) (scfg : SummaryCfg) (node : FSNode) (relParts : List String)
    (currentDepth : Nat) (patterns : List String) :
    Except Unit (List (Nat × List String × FSNode)) :=
  match extendPatterns scfg.respectGitignore scfg.gi node relParts patterns with
  | .error er => .error er
  | .ok pats =>
    let p := listEntries ctx scfg.gi node relParts pats false scfg.extraExcludes
      none none false scfg.includePatterns scfg.includeFileTypes false
    summaryChildren ctx scfg p.1 relParts currentDepth pats
termination_by (weightNode node, 1)
decreasing_by
  apply Prod.Lex.left
  exact lt_of_le_of_lt (weightList_listEntries_le _ _ _ _ _ _ _ _ _ _ _ _ _)
    (weightList_iterDir_lt node)

/-- The `for entry in entries` loop of `print_summary.count`: count the
entry at the current level, recursing into directories with depth + 1. -/
def summaryChildren (ctx : Ctx) (scfg : SummaryCfg) (entries : List FSNode)
    (relParts : List String) (currentDepth : Nat) (patterns : List String) :
    Except Unit (List (Nat × List String × FSNode)) :=
  match entries with
  | [] => .ok []
  | e :: rest =>
    if e.isDir then
      match summaryRec ctx scfg e (relParts ++ [e.name]) (currentDepth + 1) patterns with
      | .error er => .error er
      | .ok sub =>
        match summaryChildren ctx scfg rest relParts currentDepth patterns with
        | .error er => .error er
        | .ok tail => .ok ((currentDepth, relParts ++ [e.name], e) :: (sub ++ tail))
    else
      match summaryChildren ctx scfg rest relParts currentDepth patterns with
      | .error er => .error er
      | .ok tail => .ok ((currentDepth, relParts ++ [e.name], e) :: tail)
termination_by (weightList entries, 0)
decreasing_by
  all_goals
    apply Prod.Lex.left
    simp only [weightList]
    omega
end

/-! ### The legacy prototype in `src/main.py` -/

/-- From `src/main.py` `matches_extra`: `fnmatch.fnmatchcase` on the
root-relative path or the bare name, any pattern. -/
def mainMatchesExtra (ctx : Ctx) (e : FSNode) (rel : List String)
    (patterns : List String) : Bool :=
  patterns.any fun pat => ctx.fnmatchcase (posix rel) pat || ctx.fnmatchcase e.name pat

/-- The per-entry filter of `src/main.py` `list_entries`. -/
def mainPasses (ctx : Ctx) (gi : GitIgnoreMatcher) (spec : List String)
    (parentRel : List String) (showAll : Bool) (extraIgnores : List String)
    (e : FSNode) : Bool :=
  let rel := parentRel ++ [e.name]
  if !showAll && strStartsWith e.name "." then false
  else if gi.isIgnored ctx spec rel e.isDir then false
  else if mainMatchesExtra ctx e rel extraIgnores then false
  else true

/-- From `src/main.py` `list_entries` (the legacy variant: no include
filters, no `no_files`, no `exclude_depth`). -/
def mainListEntries (ctx : Ctx) (gi : GitIgnoreMatcher) (node : FSNode)
    (parentRel : List String) (spec : List String) (showAll : Bool)
    (extraIgnores : List String) (maxItems : Option Nat) : List FSNode × Nat :=
  let out := (iterDir node).filter (mainPasses ctx gi spec parentRel showAll extraIgnores)
  let out := out.mergeSort (entryLE false)
  match maxItems with
  | some n => if out.length > n then (out.take n, out.length - n) else (out, 0)
  | none => (out, 0)

theorem weightList_mainListEntries_le (ctx : Ctx) (gi : GitIgnoreMatcher) (node : FSNode)
    (parentRel spec : List String) (showAll : Bool) (extraIgnores : List String)
    (maxItems : Option Nat) :
    weightList (mainListEntries ctx gi node parentRel spec showAll extraIgnores maxItems).1 ≤
      weightList (iterDir node) := by
  unfold mainListEntries
  exact le_trans (weightList_mainTrunc_le _ _)
    (le_trans (Nat.le_of_eq (weightList_perm (List.mergeSort_perm _ _)))
      (weightList_filter_le _ _))

/-- The fixed arguments of `src/main.py` `zip_project`. -/
structure MainZipCfg where
  respectGitignore : Bool
  gitignoreDepth : Option Nat
  maxDepth : Option Nat
  showAll : Bool
  extraIgnores : List String

/-- `GitIgnoreMatcher(root, enabled=respect_gitignore, gitignore_depth=...)`. -/
def MainZipCfg.gi (mcfg : MainZipCfg) : GitIgnoreMatcher :=
  ⟨mcfg.respectGitignore, mcfg.gitignoreDepth⟩

mutual
/-- From `src/main.py` `zip_project.rec`: collects the root-relative
component lists of the files written into the archive
(`arcname = entry.relative_to(root).as_posix()`).  Unlike
`ZippingService.zip_project_to_handle.rec`, this variant has no guard
against the output zip lying inside the tree being zipped. -/
def mainZipRec (ctx : Ctx) (mcfg : MainZipCfg) (node : FSNode) (relParts : List String)
    (depth : Nat) (patterns : List String) : Except Unit (List (List String)) :=
  if depthStop mcfg.maxDepth depth then .ok []
  else
    match extendPatterns mcfg.respectGitignore mcfg.gi node relParts patterns with
    | .error er => .error er
    | .ok pats =>
      let p := mainListEntries ctx mcfg.gi node relParts pats mcfg.showAll
        mcfg.extraIgnores none
      mainZipChildren ctx mcfg p.1 relParts depth pats
termination_by (weightNode node, 1)
decreasing_by
  apply Prod.Lex.left
  exact lt_of_le_of_lt (weightList_mainListEntries_le _ _ _ _ _ _ _ _)
    (weightList_iterDir_lt node)

/-- The `for entry in entries` loop of `src/main.py` `zip_project.rec`:
recurse into directories, write every file. -/
def mainZipChildren (ctx : Ctx) (mcfg : MainZipCfg) (entries : List FSNode)
    (relParts : List String) (depth : Nat) (patterns : List String) :
    Except Unit (List (List String)) :=
  match entries with
  | [] => .ok []
  | e :: rest =>
    if e.isDir then
      match mainZipRec ctx mcfg e (relParts ++ [e.name]) (depth + 1) patterns with
      | .error er => .error er
      | .ok sub =>
        match mainZipChildren ctx mcfg rest relParts depth patterns with
        | .error er => .error er
        | .ok tail => .ok (sub ++ tail)
    else
      match mainZipChildren ctx mcfg rest relParts depth patterns with
      | .error er => .error er
      | .ok tail => .ok ((relParts ++ [e.name]) :: tail)
termination_by (weightList entries, 0)
decreasing_by
  all_goals
    apply Prod.Lex.left
    simp only [weightList]
    omega
end

/-! ### Characterization of `list_entries` -/

theorem listEntries_none (ctx : Ctx) (gi : GitIgnoreMatcher) (node : FSNode)
    (parentRel spec : List String) (showAll : Bool) (extraExcludes : List String)
    (excludeDepth : Option Nat) (noFiles : Bool)
    (includePatterns includeFileTypes : List String) (filesFirst : Bool) :
    listEntries ctx gi node parentRel spec showAll extraExcludes none excludeDepth
        noFiles includePatterns includeFileTypes filesFirst =
      (((iterDir node).filter (passesFilters ctx gi spec parentRel showAll extraExcludes
        excludeDepth noFiles includePatterns includeFileTypes)).mergeSort
          (entryLE filesFirst), 0) := rfl

theorem listEntries_some (ctx : Ctx) (gi : GitIgnoreMatcher) (node : FSNode)
    (parentRel spec : List String) (showAll : Bool) (extraExcludes : List String)
    (excludeDepth : Option Nat) (noFiles : Bool)
    (includePatterns includeFileTypes : List String) (filesFirst : Bool) (n : Nat) :
    listEntries ctx gi node parentRel spec showAll extraExcludes (some n) excludeDepth
        noFiles includePatterns includeFileTypes filesFirst =
      (let full := (listEntries ctx gi node parentRel spec showAll extraExcludes none
        excludeDepth noFiles includePatterns includeFileTypes filesFirst).1
      if full.length > n then (full.take n, full.length - n) else (full, 0)) := rfl

theorem mem_listEntries {ctx : Ctx} {gi : GitIgnoreMatcher} {node : FSNode}
    {parentRel spec : List String} {showAll : Bool} {extraExcludes : List String}
    {maxItems excludeDepth : Option Nat} {noFiles : Bool}
    {includePatterns includeFileTypes : List String} {filesFirst : Bool} {e : FSNode}
    (h : e ∈ (listEntries ctx gi node parentRel spec showAll extraExcludes maxItems
      excludeDepth noFiles includePatterns includeFileTypes filesFirst).1) :
    e ∈ iterDir node ∧ passesFilters ctx gi spec parentRel showAll extraExcludes
      excludeDepth noFiles includePatterns includeFileTypes e = true := by
  have h' : e ∈ ((iterDir node).filter (passesFilters ctx gi spec parentRel showAll
      extraExcludes excludeDepth noFiles includePatterns includeFileTypes)).mergeSort
        (entryLE filesFirst) := by
    cases maxItems with
    | none => simpa [listEntries] using h
    | some n =>
      rw [listEntries_some] at h
      simp only [listEntries_none] at h
      split at h
      · exact (List.take_sublist n _).subset h
      · exact h
  rw [List.mem_mergeSort, List.mem_filter] at h'
  exact h'

/-! ### The sort order -/

theorem charLtB_iff (a b : Char) : charLtB a b = true ↔ a < b := by
  unfold charLtB
  rw [Nat.blt_eq]
  exact Iff.rfl

theorem lexCharNilRight (l : List Char) : ¬ List.Lex (· < ·) l [] := by
  intro h
  cases h

theorem lexCharConsCons {a b : Char} {as bs : List Char} :
    List.Lex (· < ·) (a :: as) (b :: bs) ↔ a < b ∨ (a = b ∧ List.Lex (· < ·) as bs) := by
  constructor
  · intro h
    cases h with
    | rel h => exact Or.inl h
    | cons h => exact Or.inr ⟨rfl, h⟩
  · rintro (h | ⟨rfl, h⟩)
    · exact List.Lex.rel h
    · exact List.Lex.cons h

theorem charListLe_iff_not_lex : ∀ (xs ys : List Char),
    charListLe xs ys = true ↔ ¬ List.Lex (· < ·) ys xs
  | [], ys => ⟨fun _ => lexCharNilRight ys, fun _ => rfl⟩
  | _ :: _, [] => ⟨fun h => Bool.noConfusion h, fun h => absurd List.Lex.nil h⟩
  | x :: xs, y :: ys => by
    unfold charListLe
    by_cases h1 : charLtB x y = true
    · rw [if_pos h1]
      have hxy : x < y := (charLtB_iff x y).mp h1
      constructor
      · intro _ hlex
        rcases lexCharConsCons.mp hlex with hyx | ⟨heq, _⟩
        · exact absurd hxy (lt_asymm hyx)
        · exact absurd hxy (heq ▸ lt_irrefl y)
      · intro _
        rfl
    · rw [if_neg h1]
      by_cases h2 : charLtB y x = true
      · rw [if_pos h2]
        have hyx : y < x := (charLtB_iff y x).mp h2
        constructor
        · intro hf
          exact absurd hf Bool.false_ne_true
        · intro hn
          exact absurd (lexCharConsCons.mpr (Or.inl hyx)) hn
      · rw [if_neg h2]
        have hxy : ¬ x < y := fun h => h1 ((charLtB_iff x y).mpr h)
        have hyx : ¬ y < x := fun h => h2 ((charLtB_iff y x).mpr h)
        have heq : x = y := le_antisymm (not_lt.mp hyx) (not_lt.mp hxy)
        subst heq
        rw [charListLe_iff_not_lex xs ys]
        constructor
        · intro hn hlex
          rcases lexCharConsCons.mp hlex with hxx | ⟨_, hl⟩
          · exact absurd hxx (lt_irrefl x)
          · exact hn hl
        · intro hn hlex
          exact hn (lexCharConsCons.mpr (Or.inr ⟨rfl, hlex⟩))

theorem strLeB_iff (a b : String) : strLeB a b = true ↔ a ≤ b := by
  rw [String.le_iff_toList_le]
  have h1 : (a.toList ≤ b.toList) ↔ ¬ (b.toList < a.toList) := not_lt.symm
  rw [h1]
  exact charListLe_iff_not_lex a.data b.data

/-- The lexicographic order on sort keys that the claim text describes. -/
def keyLex (k k' : Nat × String) : Prop :=
  k.1 < k'.1 ∨ (k.1 = k'.1 ∧ k.2 ≤ k'.2)

theorem entryLE_eq_keyLex (ff : Bool) (a b : FSNode) :
    entryLE ff a b = true ↔ keyLex (entryKey ff a) (entryKey ff b) := by
  simp only [entryLE, keyLex, Bool.or_eq_true, Bool.and_eq_true, beq_iff_eq,
    decide_eq_true_eq, strLeB_iff]

theorem entryLE_total (ff : Bool) (a b : FSNode) :
    (entryLE ff a b || entryLE ff b a) = true := by
  rw [Bool.or_eq_true, entryLE_eq_keyLex, entryLE_eq_keyLex]
  unfold keyLex
  rcases Nat.lt_trichotomy (entryKey ff a).1 (entryKey ff b).1 with h | h | h
  · exact Or.inl (Or.inl h)
  · rcases le_total (entryKey ff a).2 (entryKey ff b).2 with h2 | h2
    · exact Or.inl (Or.inr ⟨h, h2⟩)
    · exact Or.inr (Or.inr ⟨h.symm, h2⟩)
  · exact Or.inr (Or.inl h)

theorem entryLE_trans (ff : Bool) (a b c : FSNode) (hab : entryLE ff a b = true)
    (hbc : entryLE ff b c = true) : entryLE ff a c = true := by
  rw [entryLE_eq_keyLex] at hab hbc ⊢
  unfold keyLex at hab hbc ⊢
  rcases hab with h1 | ⟨h1, h1s⟩ <;> rcases hbc with h2 | ⟨h2, h2s⟩
  · exact Or.inl (Nat.lt_trans h1 h2)
  · exact Or.inl (h2 ▸ h1)
  · exact Or.inl (h1 ▸ h2)
  · exact Or.inr ⟨h1.trans h2, le_trans h1s h2s⟩

/-- Elements with equal keys compare `entryLE` in both directions. -/
theorem entryLE_of_key_eq {ff : Bool} {a b : FSNode}
    (h : entryKey ff a = entryKey ff b) : entryLE ff a b = true := by
  rw [entryLE_eq_keyLex, h]
  exact Or.inr ⟨rfl, le_refl _⟩

theorem pairwise_of_forall_mem {α : Type} {R : α → α → Prop} {l : List α}
    (h : ∀ a ∈ l, ∀ b ∈ l, R a b) : l.Pairwise R := by
  induction l with
  | nil => exact List.Pairwise.nil
  | cons x xs ih =>
    refine List.Pairwise.cons (fun b hb => h x (List.mem_cons_self x xs) b
      (List.mem_cons_of_mem x hb)) ?_
    exact ih fun a ha b hb => h a (List.mem_cons_of_mem x ha) b (List.mem_cons_of_mem x hb)

/-- Stability of the sort, in filter form: for every key value, the
subsequence of entries carrying that key is untouched by the sort. -/
theorem mergeSort_filter_key (ff : Bool) (l : List FSNode) (k : Nat × String) :
    (l.mergeSort (entryLE ff)).filter (fun e => entryKey ff e == k) =
      l.filter (fun e => entryKey ff e == k) := by
  have hpair : (l.filter (fun e => entryKey ff e == k)).Pairwise
      (fun a b => entryLE ff a b = true) := by
    apply pairwise_of_forall_mem
    intro a ha b hb
    rw [List.mem_filter] at ha hb
    have ha2 : entryKey ff a = k := by simpa using ha.2
    have hb2 : entryKey ff b = k := by simpa using hb.2
    exact entryLE_of_key_eq (ha2.trans hb2.symm)
  have hsub : (l.filter (fun e => entryKey ff e == k)).Sublist
      (l.mergeSort (entryLE ff)) := by
    apply List.sublist_mergeSort (fun a b c => entryLE_trans ff a b c)
      (fun a b => entryLE_total ff a b) hpair (List.filter_sublist l)
  have hsub2 : (l.filter (fun e => entryKey ff e == k)).Sublist
      ((l.mergeSort (entryLE ff)).filter (fun e => entryKey ff e == k)) := by
    have h2 := hsub.filter (fun e => entryKey ff e == k)
    rw [List.filter_filter] at h2
    simpa only [Bool.and_self] using h2
  have hperm : ((l.mergeSort (entryLE ff)).filter (fun e => entryKey ff e == k)).Perm
      (l.filter (fun e => entryKey ff e == k)) :=
    (List.mergeSort_perm l (entryLE ff)).filter _
  exact (hsub2.eq_of_length hperm.length_eq.symm).symm

/-! ### Facts about the filter pipeline -/

/-- An entry that survives `list_entries` was not gitignore-ignored. -/
theorem passes_not_ignored {ctx : Ctx} {gi : GitIgnoreMatcher} {spec : List String}
    {parentRel : List String} {showAll : Bool} {extraExcludes : List String}
    {excludeDepth : Option Nat} {noFiles : Bool}
    {includePatterns includeFileTypes : List String} {e : FSNode}
    (hp : passesFilters ctx gi spec parentRel showAll extraExcludes excludeDepth
      noFiles includePatterns includeFileTypes e = true) :
    gi.isIgnored ctx spec (parentRel ++ [e.name]) e.isDir = false := by
  by_contra hne
  have hig : gi.isIgnored ctx spec (parentRel ++ [e.name]) e.isDir = true := by
    cases h : gi.isIgnored ctx spec (parentRel ++ [e.name]) e.isDir
    · exact absurd h hne
    · rfl
  unfold passesFilters at hp
  simp only [hig] at hp
  simp at hp

/-- With gitignore respecting enabled, a pattern-stack match on the
root-relative path (or, for a directory, on the path with a trailing
slash) makes `is_ignored` return `True`. -/
theorem isIgnored_of_match {gi : GitIgnoreMatcher} {ctx : Ctx} {spec rel : List String}
    {isDir : Bool} (hen : gi.enabled = true)
    (h : ctx.matchFile spec (posix rel) = true ∨
      (isDir = true ∧ ctx.matchFile spec (posix rel ++ "/") = true)) :
    gi.isIgnored ctx spec rel isDir = true := by
  unfold GitIgnoreMatcher.isIgnored
  rcases h with h | ⟨hd, h⟩
  · simp [hen, h]
  · by_cases h1 : ctx.matchFile spec (posix rel) <;> simp [hen, h, hd, h1]

/-- A concrete stand-in for the external `pathspec`/`fnmatch` matchers in
closed evaluations: a pattern list matches exactly the strings it
contains literally. -/
def exCtx : Ctx :=
  ⟨fun pats s => pats.contains s, fun s pat => s == pat, "F", "E", "D"⟩

/-- **C1, counterexample.**  The claim states that directories always pass
the gitignore-exclusion stage of `list_entries`.  They do not: here the
child directory `sub` of an enabled-gitignore listing whose compiled
pattern stack matches the relative path `"sub"` is removed by that stage
(`show_all` is `true` and no other exclusion applies), so the resulting
listing is empty. -/
theorem C1_counterexample :
    FSNode.isDir (FSNode.dir "sub" true []) = true ∧
    (FSNode.dir "sub" true []) ∈ iterDir (FSNode.dir "root" true [FSNode.dir "sub" true []]) ∧
    listEntries exCtx ⟨true, none⟩ (FSNode.dir "root" true [FSNode.dir "sub" true []])
      [] ["sub"] true [] none none false [] [] false = ([], 0) := by
  refine ⟨rfl, ?_, ?_⟩
  · simp [iterDir]
  · have h1 : ((iterDir (FSNode.dir "root" true [FSNode.dir "sub" true []])).filter
        (passesFilters exCtx ⟨true, none⟩ ["sub"] [] true [] none false [] [])) = [] := by
      rfl
    rw [listEntries_none, h1]
    simp

/-- **C1 (amended).**  The gitignore-exclusion stage of `list_entries`
applies to files and directories alike: with gitignore respecting
enabled, any entry whose root-relative path matches the compiled pattern
stack — and additionally any directory matching with a trailing slash —
is excluded from the listing.  (The claim's statement that directories
always pass this stage is refuted by `C1_counterexample`; its statement
that a matching file is unconditionally excluded is the file instance of
this theorem.) -/
theorem C1_amended (ctx : Ctx) (gi : GitIgnoreMatcher) (node : FSNode)
    (parentRel spec : List String) (showAll : Bool) (extraExcludes : List String)
    (maxItems excludeDepth : Option Nat) (noFiles : Bool)
    (includePatterns includeFileTypes : List String) (filesFirst : Bool) (e : FSNode)
    (hen : gi.enabled = true)
    (hmatch : ctx.matchFile spec (posix (parentRel ++ [e.name])) = true ∨
      (e.isDir = true ∧ ctx.matchFile spec (posix (parentRel ++ [e.name]) ++ "/") = true)) :
    e ∉ (listEntries ctx gi node parentRel spec showAll extraExcludes maxItems
      excludeDepth noFiles includePatterns includeFileTypes filesFirst).1 := by
  intro hmem
  have hp := (mem_listEntries hmem).2
  have := passes_not_ignored hp
  rw [isIgnored_of_match hen hmatch] at this
  exact Bool.noConfusion this

/-- Closed instance of `C1_amended`: a file `a.log` whose relative path is
matched by the stack is excluded. -/
theorem C1_amended_witness :
    (FSNode.file "a.log" ⟨true, []⟩) ∉ (listEntries exCtx ⟨true, none⟩
      (FSNode.dir "root" true [FSNode.file "a.log" ⟨true, []⟩])
      [] ["a.log"] true [] none none false [] [] false).1 :=
  C1_amended exCtx ⟨true, none⟩ _ [] ["a.log"] true [] none none false [] [] false
    _ rfl (Or.inl (by rfl))

/-! ### C3: the sort order of the filtered listing -/

theorem keyLex_file_right {a b : FSNode}
    (h : keyLex (entryKey false a) (entryKey false b)) (ha : a.isFile = true) :
    b.isFile = true := by
  by_cases hb : b.isFile
  · exact hb
  · simp only [entryKey, keyLex, ha, hb] at h
    simp at h

theorem keyLex_dir_right {a b : FSNode}
    (h : keyLex (entryKey true a) (entryKey true b)) (ha : a.isDir = true) :
    b.isDir = true := by
  have ha' : a.isFile = false := by cases a <;> simp_all [FSNode.isFile, FSNode.isDir]
  by_cases hb : b.isDir
  · exact hb
  · have hb' : b.isFile = true := by cases b <;> simp_all [FSNode.isFile, FSNode.isDir]
    simp only [entryKey, keyLex, ha', hb'] at h
    simp at h

/-- **C3.**  With `max_items` disabled, the listing `full` produced by
`list_entries` for a directory is a stable sort of the filtered children
`flt` by the key `(is_file, name.lower())` (boolean inverted under
`files_first`): it is a permutation of `flt`, pairwise ordered by the
lexicographic key order, leaves the relative order of equal-key entries
untouched (filter formulation of stability), the `files_first = false` key
is exactly the source's `(is_file, name.lower())`, and the boolean
component puts directories before files (all files, all directories,
respectively, once one appears) — inverted when `files_first` is set. -/
theorem C3_stable_sort (ctx : Ctx) (gi : GitIgnoreMatcher) (node : FSNode)
    (parentRel spec : List String) (showAll : Bool) (extraExcludes : List String)
    (excludeDepth : Option Nat) (noFiles : Bool)
    (includePatterns includeFileTypes : List String) (ff : Bool) :
    (listEntries ctx gi node parentRel spec showAll extraExcludes none excludeDepth
        noFiles includePatterns includeFileTypes ff).1.Perm
      ((iterDir node).filter (passesFilters ctx gi spec parentRel showAll extraExcludes
        excludeDepth noFiles includePatterns includeFileTypes)) ∧
    (listEntries ctx gi node parentRel spec showAll extraExcludes none excludeDepth
        noFiles includePatterns includeFileTypes ff).1.Pairwise
      (fun a b => keyLex (entryKey ff a) (entryKey ff b)) ∧
    (∀ k, (listEntries ctx gi node parentRel spec showAll extraExcludes none excludeDepth
        noFiles includePatterns includeFileTypes ff).1.filter
          (fun e => entryKey ff e == k) =
      ((iterDir node).filter (passesFilters ctx gi spec parentRel showAll extraExcludes
        excludeDepth noFiles includePatterns includeFileTypes)).filter
          (fun e => entryKey ff e == k)) ∧
    (∀ e, entryKey false e = entryKeyBase e) ∧
    (ff = false → (listEntries ctx gi node parentRel spec showAll extraExcludes none
        excludeDepth noFiles includePatterns includeFileTypes ff).1.Pairwise
      (fun a b => a.isFile = true → b.isFile = true)) ∧
    (ff = true → (listEntries ctx gi node parentRel spec showAll extraExcludes none
        excludeDepth noFiles includePatterns includeFileTypes ff).1.Pairwise
      (fun a b => a.isDir = true → b.isDir = true)) := by
  rw [listEntries_none]
  have hpair : (((iterDir node).filter (passesFilters ctx gi spec parentRel showAll
      extraExcludes excludeDepth noFiles includePatterns
        includeFileTypes)).mergeSort (entryLE ff)).Pairwise
      (fun a b => entryLE ff a b = true) :=
    List.sorted_mergeSort (fun a b c => entryLE_trans ff a b c)
      (fun a b => entryLE_total ff a b) _
  refine ⟨List.mergeSort_perm _ _, ?_, fun k => mergeSort_filter_key ff _ k,
    fun e => rfl, ?_, ?_⟩
  · exact hpair.imp fun h => (entryLE_eq_keyLex _ _ _).mp h
  · intro hff
    subst hff
    exact hpair.imp fun h => keyLex_file_right ((entryLE_eq_keyLex _ _ _).mp h)
  · intro hff
    subst hff
    exact hpair.imp fun h => keyLex_dir_right ((entryLE_eq_keyLex _ _ _).mp h)

/-- Closed instance of `C3_stable_sort`, discharging both `files_first`
implications on a concrete directory. -/
theorem C3_witness :
    (listEntries exCtx ⟨true, none⟩
      (FSNode.dir "root" true [FSNode.file "b.txt" ⟨true, []⟩, FSNode.dir "a" true []])
      [] [] false [] none none false [] [] false).1.Pairwise
        (fun a b => a.isFile = true → b.isFile = true) ∧
    (listEntries exCtx ⟨true, none⟩
      (FSNode.dir "root" true [FSNode.file "b.txt" ⟨true, []⟩, FSNode.dir "a" true []])
      [] [] false [] none none false [] [] true).1.Pairwise
        (fun a b => a.isDir = true → b.isDir = true) :=
  ⟨(C3_stable_sort exCtx ⟨true, none⟩ _ [] [] false [] none false [] [] false).2.2.2.2.1 rfl,
   (C3_stable_sort exCtx ⟨true, none⟩ _ [] [] false [] none false [] [] true).2.2.2.2.2 rfl⟩

/-! ### Evaluating `list_entries` on concrete inputs -/

/-- When the filtered child list is already in sort order the stable sort
leaves it unchanged, so `list_entries` reduces to filtering plus
truncation; used to evaluate closed examples. -/
theorem listEntries_eq_of_sorted {ctx : Ctx} {gi : GitIgnoreMatcher} {node : FSNode}
    {parentRel spec : List String} {showAll : Bool} {extraExcludes : List String}
    {excludeDepth : Option Nat} {noFiles : Bool}
    {includePatterns includeFileTypes : List String} {ff : Bool} (maxItems : Option Nat)
    (h : ((iterDir node).filter (passesFilters ctx gi spec parentRel showAll
      extraExcludes excludeDepth noFiles includePatterns includeFileTypes)).Pairwise
        (fun a b => entryLE ff a b = true)) :
    listEntries ctx gi node parentRel spec showAll extraExcludes maxItems excludeDepth
        noFiles includePatterns includeFileTypes ff =
      (let flt := (iterDir node).filter (passesFilters ctx gi spec parentRel showAll
        extraExcludes excludeDepth noFiles includePatterns includeFileTypes)
      match maxItems with
      | some n => if flt.length > n then (flt.take n, flt.length - n) else (flt, 0)
      | none => (flt, 0)) := by
  unfold listEntries
  simp only [List.mergeSort_of_sorted h]

/-- Boolean adjacent-pair check for the sort order; evaluates by `rfl` on
closed lists. -/
def chainLE (ff : Bool) : List FSNode → Bool
  | [] => true
  | [_] => true
  | a :: b :: r => entryLE ff a b && chainLE ff (b :: r)

/-- Adjacent-pair ordering suffices for full pairwise ordering, by
transitivity of the sort comparison; used to evaluate closed examples. -/
theorem pairwise_of_chainLE {ff : Bool} : {l : List FSNode} → chainLE ff l = true →
    l.Pairwise (fun a b => entryLE ff a b = true)
  | [], _ => List.Pairwise.nil
  | [a], _ => List.pairwise_singleton _ a
  | a :: b :: r, h => by
    unfold chainLE at h
    rw [Bool.and_eq_true] at h
    have hp := pairwise_of_chainLE h.2
    refine List.Pairwise.cons ?_ hp
    intro c hc
    rcases List.mem_cons.mp hc with hcb | hcr
    · exact hcb ▸ h.1
    · exact entryLE_trans ff a b c h.1 ((List.pairwise_cons.mp hp).1 c hcr)

/-! ### C6: an unreadable `.gitignore` aborts the traversal -/

/-- Configuration for the C6 evaluation: gitignore respected, all other
filters off, plain-line rendering. -/
def c6cfg : DrawCfg := ⟨[], none, false, [], true, none, none, none, false, true, none, [], []⟩

/-- Zip configuration for the C6 evaluation. -/
def c6zcfg : ZipCfg := ⟨["r"], true, none, none, none, false, [], false, none, [], [], ["z"]⟩

/-- A root whose `.gitignore` raises `PermissionError` on read, next to an
ordinary readable file. -/
def c6fsBad : FSNode :=
  .dir "root" true [.file ".gitignore" ⟨false, ["a.txt"]⟩, .file "a.txt" ⟨true, []⟩]

/-- The same root with the `.gitignore` absent. -/
def c6fsAbsent : FSNode := .dir "root" true [.file "a.txt" ⟨true, []⟩]

/-- **C6.**  The claim (and spec) require that a `.gitignore` that cannot
be read due to a permission error "must not crash traversal — treat as
absent".  The code contradicts it: `rec` calls
`gi_path.read_text(encoding="utf-8", errors="ignore")` with no handler for
`PermissionError` (`errors="ignore"` only tolerates encoding errors), so
the whole traversal aborts and even the readable sibling `a.txt` is never
rendered; the zip traversal aborts the same way.  Had the `.gitignore`
been absent — the claimed treatment — the rest of the tree is produced. -/
theorem C6_unreadable_gitignore_aborts :
    drawRec exCtx c6cfg c6fsBad [] "" 0 [] = .error () ∧
    zipRec exCtx c6zcfg c6fsBad [] 0 [] = .error () ∧
    drawRec exCtx c6cfg c6fsAbsent [] "" 0 [] =
      .ok [.entry 0 ["a.txt"] (.file "a.txt" ⟨true, []⟩) ("└─ a.txt")] := by
  refine ⟨?_, ?_, ?_⟩
  · rw [drawRec]
    rfl
  · rw [zipRec]
    rfl
  · rw [drawRec]
    rw [show extendPatterns c6cfg.respectGitignore c6cfg.gi c6fsAbsent [] [] =
      Except.ok [] from rfl]
    dsimp only [c6cfg, DrawCfg.gi]
    have hp : chainLE false (List.filter
        (passesFilters exCtx ⟨true, none⟩ [] [] false [] none false [] [])
        (iterDir c6fsAbsent)) = true := rfl
    rw [listEntries_eq_of_sorted none (pairwise_of_chainLE hp)]
    show drawChildren exCtx c6cfg [FSNode.file "a.txt" ⟨true, []⟩] [] "" 0 [] 0 =
      Except.ok [.entry 0 ["a.txt"] (.file "a.txt" ⟨true, []⟩) ("└─ a.txt")]
    simp only [drawChildren.eq_2, drawChildren.eq_1]
    rfl

/-! ### Provenance of rendered items -/

/-- An entry that survives `list_entries` is not hidden when `show_all`
is off. -/
theorem passes_not_hidden {ctx : Ctx} {gi : GitIgnoreMatcher} {spec : List String}
    {parentRel : List String} {extraExcludes : List String}
    {excludeDepth : Option Nat} {noFiles : Bool}
    {includePatterns includeFileTypes : List String} {e : FSNode}
    (hp : passesFilters ctx gi spec parentRel false extraExcludes excludeDepth
      noFiles includePatterns includeFileTypes e = true) :
    strStartsWith e.name "." = false := by
  cases hx : strStartsWith e.name "."
  · rfl
  · unfold passesFilters at hp
    simp [hx] at hp

/-- Structural invariant of every item in the block `draw_tree.rec`
renders for one directory: its printed line extends the block's prefix
with one of the four connector/continuation glyph heads, and every real
entry in it lies at the block's depth or deeper and — when `show_all` is
off — has a name that does not start with a dot. -/
def blockItemOK (showAll : Bool) (pre : String) (d : Nat) (it : RItem) : Prop :=
  (∃ r, it.line = pre ++ r ∧ (r.data.head? = some '├' ∨ r.data.head? = some '└' ∨
    r.data.head? = some '│' ∨ r.data.head? = some ' ')) ∧
  (∀ dd rr nn ll, it = RItem.entry dd rr nn ll →
    d ≤ dd ∧ (showAll = false → strStartsWith nn.name "." = false))

/-- The truncation item of a block satisfies the block invariant. -/
theorem blockItemOK_trunc (showAll : Bool) (pre : String) (d t : Nat) :
    blockItemOK showAll pre d (RItem.trunc t (truncLine pre t)) := by
  constructor
  · refine ⟨LAST ++ ("... and " ++ (toString t ++ " more items")), ?_, ?_⟩
    · show truncLine pre t = _
      unfold truncLine
      simp [String.append_assoc]
    · right; left
      rfl
  · intro dd rr nn ll h
    cases h

/-- Lines of a nested block, re-expressed one level up: prefix glyphs
`SPACE`/`VERT` become the head of the suffix. -/
theorem blockItemOK_lift {showAll : Bool} {pre pre' : String} {d : Nat} {it : RItem}
    (hpre : pre' = pre ++ SPACE ∨ pre' = pre ++ VERT)
    (h : blockItemOK showAll pre' (d + 1) it) :
    blockItemOK showAll pre d it := by
  obtain ⟨⟨r, hline, hhead⟩, hentry⟩ := h
  constructor
  · rcases hpre with hpre | hpre
    · refine ⟨SPACE ++ r, ?_, ?_⟩
      · rw [hline, hpre, String.append_assoc]
      · right; right; right
        rfl
    · refine ⟨VERT ++ r, ?_, ?_⟩
      · rw [hline, hpre, String.append_assoc]
      · right; right; left
        rfl
  · intro dd rr nn ll heq
    obtain ⟨hd, hh⟩ := hentry dd rr nn ll heq
    exact ⟨Nat.le_of_succ_le hd, hh⟩

/-- The head entry line of a block satisfies the block invariant. -/
theorem blockItemOK_head {ctx : Ctx} {showAll emoji : Bool} {pre : String} {d : Nat}
    {rr : List String} {e : FSNode} (isLast : Bool)
    (hhid : showAll = false → strStartsWith e.name "." = false) :
    blockItemOK showAll pre d (RItem.entry d rr e
      (entryLine ctx emoji pre (if isLast then LAST else BRANCH) e)) := by
  constructor
  · cases emoji
    · cases isLast
      · exact ⟨BRANCH ++ (emojiStr ctx e ++ (" " ++ (e.name ++ (if e.isDir then "/" else "")))),
          by simp [RItem.line, entryLine, String.append_assoc], Or.inl rfl⟩
      · exact ⟨LAST ++ (emojiStr ctx e ++ (" " ++ (e.name ++ (if e.isDir then "/" else "")))),
          by simp [RItem.line, entryLine, String.append_assoc], Or.inr (Or.inl rfl)⟩
    · cases isLast
      · exact ⟨BRANCH ++ (e.name ++ (if e.isDir then "/" else "")),
          by simp [RItem.line, entryLine, String.append_assoc], Or.inl rfl⟩
      · exact ⟨LAST ++ (e.name ++ (if e.isDir then "/" else "")),
          by simp [RItem.line, entryLine, String.append_assoc], Or.inr (Or.inl rfl)⟩
  · intro dd rr' nn ll heq
    cases heq
    exact ⟨Nat.le_refl d, hhid⟩

/-- Every item in the block rendered by `draw_tree.rec` satisfies the
block invariant `blockItemOK`. -/
theorem drawRec_blockItems (ctx : Ctx) (cfg : DrawCfg) (node : FSNode)
    (relParts : List String) (pre : String) (d : Nat) (pats : List String) :
    ∀ its, drawRec ctx cfg node relParts pre d pats = Except.ok its →
      ∀ it ∈ its, blockItemOK cfg.showAll pre d it := by
  refine drawRec.induct ctx cfg
    (fun node relParts pre d pats =>
      ∀ its, drawRec ctx cfg node relParts pre d pats = Except.ok its →
        ∀ it ∈ its, blockItemOK cfg.showAll pre d it)
    (fun entries relParts pre d pats t =>
      (∀ e ∈ entries, passesFilters ctx cfg.gi pats relParts cfg.showAll
        cfg.extraExcludes cfg.excludeDepth cfg.noFiles cfg.includePatterns
        cfg.includeFileTypes e = true) →
      ∀ its, drawChildren ctx cfg entries relParts pre d pats t = Except.ok its →
        ∀ it ∈ its, blockItemOK cfg.showAll pre d it)
    ?_ ?_ ?_ ?_ ?_ ?_ ?_ node relParts pre d pats
  · -- depth cutoff: the block is empty
    intro node relParts pre d pats hstop its h it hit
    rw [drawRec.eq_def, if_pos hstop] at h
    cases h
    cases hit
  · -- .gitignore read error: no block is produced
    intro node relParts pre d pats hstop er hext its h
    rw [drawRec.eq_def, if_neg hstop, hext] at h
    cases h
  · -- successful listing: defer to the child loop
    intro node relParts pre d pats hstop pats' hext p entries hIH its h
    rw [drawRec.eq_def, if_neg hstop, hext] at h
    refine hIH ?_ its h
    intro e he
    exact (mem_listEntries (List.mem_filter.mp he).1).2
  · -- empty entry list: possibly a truncation marker
    intro relParts pre d pats t hpass its h it hit
    rw [drawChildren.eq_def] at h
    cases h
    by_cases ht : t > 0
    · rw [if_pos ht] at hit
      rcases List.mem_singleton.mp hit with rfl
      exact blockItemOK_trunc _ pre d t
    · rw [if_neg ht] at hit
      cases hit
  · -- child whose recursive render fails
    intro relParts pre d pats t e rest er heq hIH1 hpass its h
    simp only [dite_eq_ite] at heq
    rw [drawChildren.eq_2, heq] at h
    exact Except.noConfusion h
  · -- child renders but a later sibling fails
    intro relParts pre d pats t e rest sub heq er htail hIH1 hIH2 hpass its h
    simp only [dite_eq_ite] at heq
    rw [drawChildren.eq_2, heq, htail] at h
    exact Except.noConfusion h
  · -- successful child and tail
    intro relParts pre d pats t e rest sub heq tail htail hIH1 hIH2 hpass its h
    simp only [dite_eq_ite] at heq hIH1
    rw [drawChildren.eq_2, heq, htail] at h
    have h' : RItem.entry d (relParts ++ [e.name]) e
        (entryLine ctx cfg.emoji pre
          (if rest.isEmpty && t == 0 then LAST else BRANCH) e) :: (sub ++ tail) = its :=
      Except.ok.inj h
    subst h'
    intro it hit
    rcases List.mem_cons.mp hit with rfl | hit2
    · by_cases hLast : (rest.isEmpty && t == 0) = true
      · rw [if_pos hLast]
        exact blockItemOK_head true fun hsa =>
          passes_not_hidden (hsa ▸ hpass e (List.mem_cons_self e rest))
      · rw [if_neg hLast]
        exact blockItemOK_head false fun hsa =>
          passes_not_hidden (hsa ▸ hpass e (List.mem_cons_self e rest))
    · rcases List.mem_append.mp hit2 with hsub2 | htail2
      · by_cases hd : e.isDir = true
        · rw [if_pos hd] at heq
          refine blockItemOK_lift ?_ (hIH1 sub heq it hsub2)
          by_cases hLast : (rest.isEmpty && t == 0) = true
          · left
            simp [hLast]
          · right
            simp [hLast]
        · rw [if_neg hd] at heq
          cases heq
          cases hsub2
      · exact hIH2 (fun e' he' => hpass e' (List.mem_cons_of_mem e he')) tail htail it htail2

/-- **C7.**  With `show_all = false` no entry whose name starts with `.`
appears anywhere in the rendered output.  This is the strong form of the
claim: the "unless it is an ancestor-required directory for a whitelist
match" allowance is never needed, because `list_entries` removes hidden
names before the whitelist pruning runs, so every rendered entry —
whitelist-required or not — has a non-dot name; the claimed disjunction
follows a fortiori. -/
theorem C7_no_hidden_in_output (ctx : Ctx) (cfg : DrawCfg) (node : FSNode)
    (relParts : List String) (pre : String) (d : Nat) (pats : List String)
    (its : List RItem) (hsa : cfg.showAll = false)
    (hok : drawRec ctx cfg node relParts pre d pats = Except.ok its) :
    ∀ it ∈ its, ∀ dd rr nn ll, it = RItem.entry dd rr nn ll →
      strStartsWith nn.name "." = false := by
  intro it hit dd rr nn ll heq
  exact ((drawRec_blockItems ctx cfg node relParts pre d pats its hok it hit).2
    dd rr nn ll heq).2 hsa

/-- Configuration for the C7 closed instance: `show_all = false`,
gitignore respecting off, no other filters. -/
def c7cfg : DrawCfg := ⟨[], none, false, [], false, none, none, none, false, true, none, [], []⟩

/-- A root containing a hidden file next to an ordinary one. -/
def c7fs : FSNode :=
  .dir "root" true [.file ".hidden" ⟨true, []⟩, .file "a.txt" ⟨true, []⟩]

/-- Closed instance of `C7_no_hidden_in_output`: the traversal of `c7fs`
renders only `a.txt`, whose name does not start with a dot. -/
theorem C7_witness :
    strStartsWith (FSNode.file "a.txt" ⟨true, []⟩).name "." = false :=
  C7_no_hidden_in_output exCtx c7cfg c7fs [] "" 0 []
    [RItem.entry 0 ["a.txt"] (FSNode.file "a.txt" ⟨true, []⟩) ("└─ a.txt")] rfl
    (by
      rw [drawRec]
      rw [show extendPatterns c7cfg.respectGitignore c7cfg.gi c7fs [] [] =
        Except.ok [] from rfl]
      dsimp only [c7cfg, DrawCfg.gi]
      have hp : chainLE false (List.filter
          (passesFilters exCtx ⟨false, none⟩ [] [] false [] none false [] [])
          (iterDir c7fs)) = true := rfl
      rw [listEntries_eq_of_sorted none (pairwise_of_chainLE hp)]
      show drawChildren exCtx c7cfg [FSNode.file "a.txt" ⟨true, []⟩] [] "" 0 [] 0 = _
      simp only [drawChildren.eq_2, drawChildren.eq_1]
      rfl)
    (RItem.entry 0 ["a.txt"] (FSNode.file "a.txt" ⟨true, []⟩) ("└─ a.txt"))
    (List.mem_singleton.mpr rfl)
    0 ["a.txt"] (FSNode.file "a.txt" ⟨true, []⟩) ("└─ a.txt") rfl

/-! ### C10: the summary traversal -/

/-- The traversal observations `(depth, root-relative path, entry)` of a
rendered block, dropping the synthetic truncation markers. -/
def itemsVisited : List RItem → List (Nat × List String × FSNode)
  | [] => []
  | .entry d r n _ :: rest => (d, r, n) :: itemsVisited rest
  | .trunc _ _ :: rest => itemsVisited rest

theorem itemsVisited_append (a b : List RItem) :
    itemsVisited (a ++ b) = itemsVisited a ++ itemsVisited b := by
  induction a with
  | nil => rfl
  | cons x rest ih =>
    cases x with
    | entry d r n l => simp [itemsVisited, ih]
    | trunc t l => simp [itemsVisited, ih]

theorem mem_itemsVisited {x : Nat × List String × FSNode} :
    ∀ {l : List RItem}, x ∈ itemsVisited l →
      ∃ ll, RItem.entry x.1 x.2.1 x.2.2 ll ∈ l
  | [], h => absurd h (List.not_mem_nil x)
  | .entry d r n ll :: rest, h => by
    rw [itemsVisited, List.mem_cons] at h
    rcases h with rfl | h
    · exact ⟨ll, List.mem_cons_self _ _⟩
    · obtain ⟨ll', hm⟩ := mem_itemsVisited h
      exact ⟨ll', List.mem_cons_of_mem _ hm⟩
  | .trunc t l :: rest, h => by
    rw [itemsVisited] at h
    obtain ⟨ll', hm⟩ := mem_itemsVisited h
    exact ⟨ll', List.mem_cons_of_mem _ hm⟩

/-- The `draw_tree` configuration whose traversal decisions coincide with
the hard-wired `list_entries` arguments of `print_summary.count`:
`show_all = False`, no depth cutoff, `max_items = None`,
`exclude_depth = None`, `no_files = False`, no whitelist. -/
def summaryDrawCfg (scfg : SummaryCfg) (rootParts : List String) (emoji : Bool) : DrawCfg :=
  ⟨rootParts, none, false, scfg.extraExcludes, scfg.respectGitignore,
    scfg.gitignoreDepth, none, none, false, emoji, none, scfg.includePatterns,
    scfg.includeFileTypes⟩

/-- The summary traversal visits exactly what the tree renderer renders
under the fixed configuration of `summaryDrawCfg` — including erroring on
exactly the same unreadable `.gitignore`s. -/
theorem summary_eq_drawRec (ctx : Ctx) (scfg : SummaryCfg) (rootParts : List String)
    (emoji : Bool) (node : FSNode) (relParts : List String) (d : Nat)
    (pats : List String) :
    ∀ pre, summaryRec ctx scfg node relParts d pats =
      Except.map itemsVisited
        (drawRec ctx (summaryDrawCfg scfg rootParts emoji) node relParts pre d pats) := by
  refine summaryRec.induct ctx scfg
    (fun node relParts d pats => ∀ pre,
      summaryRec ctx scfg node relParts d pats =
        Except.map itemsVisited
          (drawRec ctx (summaryDrawCfg scfg rootParts emoji) node relParts pre d pats))
    (fun entries relParts d pats => ∀ pre,
      summaryChildren ctx scfg entries relParts d pats =
        Except.map itemsVisited
          (drawChildren ctx (summaryDrawCfg scfg rootParts emoji) entries relParts pre d
            pats 0))
    ?_ ?_ ?_ ?_ ?_ ?_ ?_ ?_ node relParts d pats
  · -- .gitignore read error on both sides
    intro node relParts d pats er hext pre
    rw [summaryRec.eq_def, hext, drawRec.eq_def,
      if_neg (by simp [depthStop, summaryDrawCfg])]
    dsimp only [summaryDrawCfg, DrawCfg.gi, SummaryCfg.gi] at hext ⊢
    rw [hext]
    rfl
  · -- successful listing on both sides
    intro node relParts d pats pats' hext p hIH pre
    rw [summaryRec.eq_def, hext, drawRec.eq_def,
      if_neg (by simp [depthStop, summaryDrawCfg])]
    dsimp only [summaryDrawCfg, DrawCfg.gi, SummaryCfg.gi] at hext ⊢
    rw [hext]
    dsimp only
    rw [show (List.filter (fun e => whitelistKeep rootParts none (relParts ++ [e.name]) e)
      (listEntries ctx ⟨scfg.respectGitignore, scfg.gitignoreDepth⟩ node relParts pats'
        false scfg.extraExcludes none none
        false scfg.includePatterns scfg.includeFileTypes false).1) =
      (listEntries ctx ⟨scfg.respectGitignore, scfg.gitignoreDepth⟩ node relParts pats'
        false scfg.extraExcludes none none
        false scfg.includePatterns scfg.includeFileTypes false).1 from by
        simp [whitelistKeep]]
    rw [show (listEntries ctx ⟨scfg.respectGitignore, scfg.gitignoreDepth⟩ node relParts
      pats' false scfg.extraExcludes none
      none false scfg.includePatterns scfg.includeFileTypes false).2 = 0 from rfl]
    exact hIH pre
  · -- empty child list
    intro relParts d pats pre
    rw [summaryChildren.eq_1, drawChildren.eq_1]
    rfl
  · -- directory child whose recursion errors
    intro relParts d pats e rest hd er hsub hIH pre
    rw [summaryChildren.eq_2, if_pos hd, hsub, drawChildren.eq_2, if_pos hd]
    have h1 := (hIH (pre ++ (if rest.isEmpty && (0 : Nat) == 0 then SPACE else VERT))).symm.trans hsub
    cases hdr : drawRec ctx (summaryDrawCfg scfg rootParts emoji) e (relParts ++ [e.name])
        (pre ++ (if rest.isEmpty && (0 : Nat) == 0 then SPACE else VERT)) (d + 1) pats with
    | error u =>
      rfl
    | ok l =>
      rw [hdr] at h1
      exact absurd h1 (by simp [Except.map])
  · -- directory child fine, later sibling errors
    intro relParts d pats e rest hd sub hsub er htail hIH1 hIH2 pre
    rw [summaryChildren.eq_2, if_pos hd, hsub, htail, drawChildren.eq_2, if_pos hd]
    have h1 := (hIH1 (pre ++ (if rest.isEmpty && (0 : Nat) == 0 then SPACE else VERT))).symm.trans hsub
    cases hdr : drawRec ctx (summaryDrawCfg scfg rootParts emoji) e (relParts ++ [e.name])
        (pre ++ (if rest.isEmpty && (0 : Nat) == 0 then SPACE else VERT)) (d + 1) pats with
    | error u =>
      rw [hdr] at h1
      exact absurd h1 (by simp [Except.map])
    | ok l =>
      have h2 := (hIH2 pre).symm.trans htail
      cases hdc : drawChildren ctx (summaryDrawCfg scfg rootParts emoji) rest relParts pre d pats 0 with
      | error u =>
        rfl
      | ok l2 =>
        rw [hdc] at h2
        exact absurd h2 (by simp [Except.map])
  · -- directory child and tail both fine
    intro relParts d pats e rest hd sub hsub tail htail hIH1 hIH2 pre
    rw [summaryChildren.eq_2, if_pos hd, hsub, htail, drawChildren.eq_2, if_pos hd]
    have h1 := (hIH1 (pre ++ (if rest.isEmpty && (0 : Nat) == 0 then SPACE else VERT))).symm.trans hsub
    cases hdr : drawRec ctx (summaryDrawCfg scfg rootParts emoji) e (relParts ++ [e.name])
        (pre ++ (if rest.isEmpty && (0 : Nat) == 0 then SPACE else VERT)) (d + 1) pats with
    | error u =>
      rw [hdr] at h1
      exact absurd h1 (by simp [Except.map])
    | ok l =>
      rw [hdr] at h1
      have hsubv : itemsVisited l = sub := by
        simpa [Except.map] using h1
      have h2 := (hIH2 pre).symm.trans htail
      cases hdc : drawChildren ctx (summaryDrawCfg scfg rootParts emoji) rest relParts pre d pats 0 with
      | error u =>
        rw [hdc] at h2
        exact absurd h2 (by simp [Except.map])
      | ok l2 =>
        rw [hdc] at h2
        have htailv : itemsVisited l2 = tail := by
          simpa [Except.map] using h2
        simp [Except.map, itemsVisited, itemsVisited_append, hsubv, htailv]
  · -- file child, later sibling errors
    intro relParts d pats e rest hd er htail hIH2 pre
    rw [summaryChildren.eq_2, if_neg hd, htail, drawChildren.eq_2, if_neg hd]
    have h2 := (hIH2 pre).symm.trans htail
    cases hdc : drawChildren ctx (summaryDrawCfg scfg rootParts emoji) rest relParts pre d pats 0 with
    | error u =>
      rfl
    | ok l2 =>
      rw [hdc] at h2
      exact absurd h2 (by simp [Except.map])
  · -- file child, tail fine
    intro relParts d pats e rest hd tail htail hIH2 pre
    rw [summaryChildren.eq_2, if_neg hd, htail, drawChildren.eq_2, if_neg hd]
    have h2 := (hIH2 pre).symm.trans htail
    cases hdc : drawChildren ctx (summaryDrawCfg scfg rootParts emoji) rest relParts pre d pats 0 with
    | error u =>
      rw [hdc] at h2
      exact absurd h2 (by simp [Except.map])
    | ok l2 =>
      rw [hdc] at h2
      have htailv : itemsVisited l2 = tail := by
        simpa [Except.map] using h2
      simp [Except.map, itemsVisited, htailv]

/-- **C10.**  The summary traversal is exactly the tree traversal with
`show_all = False`, `max_items = None`, `no_files = False`,
`exclude_depth = None`, no depth cutoff and no whitelist: its visited
observations equal the entry items the renderer would produce under
`summaryDrawCfg` — for every `rootParts`, `emoji` and prefix, since none
of those can influence it — and consequently no hidden (dot-prefixed)
entry is ever counted.  The reported per-level counts are a function of
these observations, so the traversal's max-depth, no-files, max-items and
exclude-depth settings (absent from `print_summary`'s signature
altogether) cannot affect them. -/
theorem C10_summary_fixed_filters (ctx : Ctx) (scfg : SummaryCfg)
    (rootParts : List String) (emoji : Bool) (node : FSNode) (relParts : List String)
    (pre : String) (d : Nat) (pats : List String) :
    summaryRec ctx scfg node relParts d pats =
      Except.map itemsVisited
        (drawRec ctx (summaryDrawCfg scfg rootParts emoji) node relParts pre d pats) ∧
    (∀ its, summaryRec ctx scfg node relParts d pats = Except.ok its →
      ∀ x ∈ its, strStartsWith x.2.2.name "." = false) := by
  refine ⟨summary_eq_drawRec ctx scfg rootParts emoji node relParts d pats pre, ?_⟩
  intro its hok x hx
  have heq := summary_eq_drawRec ctx scfg rootParts emoji node relParts d pats pre
  rw [hok] at heq
  cases hdr : drawRec ctx (summaryDrawCfg scfg rootParts emoji) node relParts pre d pats with
  | error u =>
    rw [hdr] at heq
    exact absurd heq (by simp [Except.map])
  | ok l =>
    rw [hdr] at heq
    have hits : its = itemsVisited l := by
      simpa [Except.map] using heq
    subst hits
    obtain ⟨ll, hm⟩ := mem_itemsVisited hx
    exact ((drawRec_blockItems ctx _ node relParts pre d pats l hdr _ hm).2
      x.1 x.2.1 x.2.2 ll rfl).2 rfl

/-- Closed instance of `C10_summary_fixed_filters`: on a tree with a
hidden file and a plain file, the summary counts only the plain file. -/
theorem C10_witness :
    ∀ x ∈ [((0 : Nat), ["a.txt"], FSNode.file "a.txt" ⟨true, []⟩)],
      strStartsWith x.2.2.name "." = false :=
  (C10_summary_fixed_filters exCtx ⟨false, none, [], [], []⟩ [] true c7fs [] "" 0 []).2
    [((0 : Nat), ["a.txt"], FSNode.file "a.txt" ⟨true, []⟩)]
    (by
      rw [summaryRec.eq_def]
      dsimp only
      rw [show extendPatterns false (SummaryCfg.gi ⟨false, none, [], [], []⟩) c7fs [] [] =
        Except.ok [] from rfl]
      dsimp only [SummaryCfg.gi]
      have hp : chainLE false (List.filter
          (passesFilters exCtx ⟨false, none⟩ [] [] false [] none false [] [])
          (iterDir c7fs)) = true := rfl
      rw [listEntries_eq_of_sorted none (pairwise_of_chainLE hp)]
      show summaryChildren exCtx ⟨false, none, [], [], []⟩
        [FSNode.file "a.txt" ⟨true, []⟩] [] 0 [] = _
      simp only [summaryChildren.eq_2, summaryChildren.eq_1]
      rfl)

/-! ### C2/C9: block decomposition with truncation -/

theorem head_BRANCH (x : String) : (BRANCH ++ x).data.head? = some '├' := by
  rw [String.data_append]
  rfl

theorem head_LAST (x : String) : (LAST ++ x).data.head? = some '└' := by
  rw [String.data_append]
  rfl

theorem head_VERT (x : String) : (VERT ++ x).data.head? = some '│' := by
  rw [String.data_append]
  rfl

theorem head_SPACE (x : String) : (SPACE ++ x).data.head? = some ' ' := by
  rw [String.data_append]
  rfl

theorem str_append_cancel {p a b : String} (h : p ++ a = p ++ b) : a = b := by
  have hd := congrArg String.data h
  rw [String.data_append, String.data_append] at hd
  exact String.ext (List.append_cancel_left hd)

theorem str_append_ne_of_head {p a b : String} (h : a.data.head? ≠ b.data.head?) :
    p ++ a ≠ p ++ b :=
  fun he => h (congrArg (fun s => String.data s |>.head?) (str_append_cancel he))

/-- The entries a block displays at its own level `d` (nested blocks lie
at strictly greater depths and truncation markers carry no entry). -/
def topEntries (d : Nat) : List RItem → List FSNode
  | [] => []
  | .entry dd _ nn _ :: rest =>
    if dd = d then nn :: topEntries d rest else topEntries d rest
  | .trunc _ _ :: rest => topEntries d rest

theorem topEntries_append (d : Nat) (a b : List RItem) :
    topEntries d (a ++ b) = topEntries d a ++ topEntries d b := by
  induction a with
  | nil => rfl
  | cons x rest ih =>
    cases x with
    | entry dd r n l =>
      by_cases hdd : dd = d
      · simp [topEntries, hdd, ih]
      · simp [topEntries, hdd, ih]
    | trunc t l => simp [topEntries, ih]

/-- A nested block (all entries deeper than `d`) contributes nothing at
level `d`. -/
theorem topEntries_nil_of_deeper {d : Nat} : ∀ {l : List RItem},
    (∀ it ∈ l, ∀ dd rr nn ll, it = RItem.entry dd rr nn ll → d + 1 ≤ dd) →
    topEntries d l = []
  | [], _ => rfl
  | .entry dd r n ll :: rest, h => by
    have hdd := h _ (List.mem_cons_self _ _) dd r n ll rfl
    rw [topEntries, if_neg (by omega)]
    exact topEntries_nil_of_deeper fun it hit => h it (List.mem_cons_of_mem _ hit)
  | .trunc t ll :: rest, h => by
    rw [topEntries]
    exact topEntries_nil_of_deeper fun it hit => h it (List.mem_cons_of_mem _ hit)

theorem truncLine_eq (pre : String) (t : Nat) :
    truncLine pre t = pre ++ (LAST ++ ("... and " ++ (toString t ++ " more items"))) := by
  unfold truncLine
  simp [String.append_assoc]

/-- Decomposition of one directory's rendered block: the entries shown at
the block's own level are exactly the entry list handed to the loop, in
order; and when items were truncated the block is a body followed by a
single final truncation line that occurs nowhere in the body. -/
theorem drawChildren_shape (ctx : Ctx) (cfg : DrawCfg) :
    ∀ (entries : List FSNode) (relParts : List String) (pre : String) (d : Nat)
      (pats : List String) (t : Nat) (its : List RItem),
      drawChildren ctx cfg entries relParts pre d pats t = Except.ok its →
      topEntries d its = entries ∧
      (0 < t → ∃ body, its = body ++ [RItem.trunc t (truncLine pre t)] ∧
        ∀ it ∈ body, it.line ≠ truncLine pre t)
  | [], relParts, pre, d, pats, t, its, h => by
    rw [drawChildren.eq_1] at h
    cases h
    refine ⟨?_, ?_⟩
    · by_cases ht : t > 0
      · rw [if_pos ht]
        rfl
      · rw [if_neg ht]
        rfl
    · intro ht
      rw [if_pos ht]
      exact ⟨[], rfl, by simp⟩
  | e :: rest, relParts, pre, d, pats, t, its, h => by
    rw [drawChildren.eq_2] at h
    cases hsubr : (if e.isDir = true then
        drawRec ctx cfg e (relParts ++ [e.name])
          (pre ++ (if (rest.isEmpty && t == 0) = true then SPACE else VERT))
          (d + 1) pats
      else Except.ok []) with
    | error u =>
      rw [hsubr] at h
      exact absurd h (by simp)
    | ok sub =>
      rw [hsubr] at h
      cases htail : drawChildren ctx cfg rest relParts pre d pats t with
      | error u =>
        rw [htail] at h
        exact absurd h (by simp)
      | ok tail =>
        rw [htail] at h
        have hits : RItem.entry d (relParts ++ [e.name]) e
            (entryLine ctx cfg.emoji pre
              (if rest.isEmpty && t == 0 then LAST else BRANCH) e) :: (sub ++ tail) = its :=
          Except.ok.inj h
        subst hits
        obtain ⟨ihtop, ihtrunc⟩ :=
          drawChildren_shape ctx cfg rest relParts pre d pats t tail htail
        have hsubOK : ∀ it ∈ sub, blockItemOK cfg.showAll
            (pre ++ (if (rest.isEmpty && t == 0) = true then SPACE else VERT)) (d + 1) it := by
          by_cases hdcase : e.isDir = true
          · rw [if_pos hdcase] at hsubr
            exact drawRec_blockItems ctx cfg e (relParts ++ [e.name]) _ (d + 1) pats sub hsubr
          · rw [if_neg hdcase] at hsubr
            cases hsubr
            intro it hit
            cases hit
        have hsubDeep : ∀ it ∈ sub, ∀ dd rr nn ll, it = RItem.entry dd rr nn ll →
            d + 1 ≤ dd := fun it hit dd rr nn ll heq =>
          ((hsubOK it hit).2 dd rr nn ll heq).1
        refine ⟨?_, ?_⟩
        · rw [topEntries, if_pos rfl, topEntries_append,
            topEntries_nil_of_deeper hsubDeep, ihtop]
          rfl
        · intro ht
          obtain ⟨body, hbody, hbodyne⟩ := ihtrunc ht
          have hlastfalse : (rest.isEmpty && t == 0) = false := by
            have : (t == 0) = false := by
              simpa using Nat.ne_of_gt ht
            rw [this, Bool.and_false]
          refine ⟨RItem.entry d (relParts ++ [e.name]) e
            (entryLine ctx cfg.emoji pre
              (if rest.isEmpty && t == 0 then LAST else BRANCH) e) :: (sub ++ body), ?_, ?_⟩
          · rw [hbody]
            simp
          · intro it hit
            rcases List.mem_cons.mp hit with rfl | hit2
            · show entryLine ctx cfg.emoji pre
                (if (rest.isEmpty && t == 0) = true then LAST else BRANCH) e ≠
                  truncLine pre t
              rw [hlastfalse, if_neg Bool.false_ne_true, truncLine_eq]
              cases hem : cfg.emoji
              · rw [show entryLine ctx false pre BRANCH e =
                  pre ++ (BRANCH ++ (emojiStr ctx e ++ (" " ++ (e.name ++
                    (if e.isDir = true then "/" else ""))))) from by
                    simp [entryLine, String.append_assoc]]
                exact str_append_ne_of_head (by rw [head_BRANCH, head_LAST]; decide)
              · rw [show entryLine ctx true pre BRANCH e =
                  pre ++ (BRANCH ++ (e.name ++ (if e.isDir = true then "/" else ""))) from by
                    simp [entryLine, String.append_assoc]]
                exact str_append_ne_of_head (by rw [head_BRANCH, head_LAST]; decide)
            · rcases List.mem_append.mp hit2 with hsub2 | hbody2
              · obtain ⟨⟨r, hline, hhead⟩, _⟩ := hsubOK it hsub2
                rw [hlastfalse, if_neg Bool.false_ne_true] at hline
                rw [hline, String.append_assoc, truncLine_eq]
                refine str_append_ne_of_head ?_
                rw [head_VERT, head_LAST]
                decide
              · exact hbodyne it hbody2

/-- One unfolding of `draw_tree.rec` under an active `max_items` overflow:
the loop runs on the whitelist-filter of the first `N` sorted entries, with
the pre-whitelist overflow `M - N` as the truncated count. -/
theorem drawRec_step_trunc (ctx : Ctx) (cfg : DrawCfg) (node : FSNode)
    (relParts : List String) (pre : String) (d : Nat) (pats pats' : List String)
    (N : Nat) (full : List FSNode)
    (hmi : cfg.maxItems = some N)
    (hstop : depthStop cfg.depth d = false)
    (hext : extendPatterns cfg.respectGitignore cfg.gi node relParts pats =
      Except.ok pats')
    (hfull : full = (listEntries ctx cfg.gi node relParts pats' cfg.showAll
      cfg.extraExcludes none cfg.excludeDepth cfg.noFiles cfg.includePatterns
      cfg.includeFileTypes false).1)
    (hM : full.length > N) :
    drawRec ctx cfg node relParts pre d pats =
      drawChildren ctx cfg ((full.take N).filter fun e =>
          whitelistKeep cfg.rootParts cfg.whitelist (relParts ++ [e.name]) e)
        relParts pre d pats' (full.length - N) := by
  rw [drawRec.eq_def, if_neg (by simp [hstop]), hext]
  dsimp only
  rw [hmi, listEntries_some]
  dsimp only
  rw [← hfull, if_pos hM]

/-- Configuration for the C2 counterexample: a whitelist holding only
`/r/b`, together with `max_items = 1`; gitignore respecting off, plain
lines. -/
def c2cfg : DrawCfg :=
  ⟨["r"], none, false, [], false, none, some 1, none, false, true, some ["/r/b"], [], []⟩

/-- A root `r` with two plain files `a` and `b`. -/
def c2fs : FSNode :=
  .dir "r" true [.file "a" ⟨true, []⟩, .file "b" ⟨true, []⟩]

/-- The configuration of the C2 counterexample with the whitelist removed. -/
def c2acfg : DrawCfg :=
  ⟨["r"], none, false, [], false, none, some 1, none, false, true, none, [], []⟩

/-- **C2, counterexample.**  The claim says that with `max_items = N` a
directory whose filtered, sorted child list has `M > N` entries always
shows exactly the first `N` entries followed by the truncation line.  With
a whitelist active it does not: here the full filtered, sorted list is
`[a, b]` (`M = 2 > N = 1`), so the claim demands that `a` be displayed
before the `"... and 1 more items"` line — but the rendered block of the
root consists of the truncation line alone and displays no entry at all,
because `draw_tree.rec` prunes by the whitelist only after `list_entries`
has truncated to the first `N`. -/
theorem C2_counterexample :
    c2cfg.maxItems = some 1 ∧
    (listEntries exCtx c2cfg.gi c2fs [] [] c2cfg.showAll c2cfg.extraExcludes none
        c2cfg.excludeDepth c2cfg.noFiles c2cfg.includePatterns c2cfg.includeFileTypes
        false).1 = [.file "a" ⟨true, []⟩, .file "b" ⟨true, []⟩] ∧
    drawRec exCtx c2cfg c2fs [] "" 0 [] =
      .ok [.trunc 1 (truncLine "" 1)] ∧
    topEntries 0 [RItem.trunc 1 (truncLine "" 1)] = [] ∧
    ([] : List FSNode) ≠ [FSNode.file "a" ⟨true, []⟩, FSNode.file "b" ⟨true, []⟩].take 1 := by
  have hp : chainLE false (List.filter
      (passesFilters exCtx ⟨false, none⟩ [] [] false [] none false [] [])
      (iterDir c2fs)) = true := rfl
  refine ⟨rfl, ?_, ?_, rfl, fun h => List.noConfusion h⟩
  · dsimp only [c2cfg, DrawCfg.gi]
    rw [listEntries_eq_of_sorted none (pairwise_of_chainLE hp)]
    rfl
  · rw [drawRec]
    rw [show extendPatterns c2cfg.respectGitignore c2cfg.gi c2fs [] [] =
      Except.ok [] from rfl]
    dsimp only [c2cfg, DrawCfg.gi]
    rw [listEntries_eq_of_sorted (some 1) (pairwise_of_chainLE hp)]
    show drawChildren exCtx c2cfg [] [] "" 0 [] 1 = _
    rw [drawChildren.eq_1]
    rfl

/-- **C2 (amended).**  With `max_items = N`, no whitelist, and a directory
whose filtered, sorted child list `full` has `M > N` entries, the rendered
block shows exactly `full.take N` — the first `N` entries in sort order —
at its own level, followed by a single truncation line reading
`"... and {M-N} more items"`, and that line is the final line of the block
and occurs nowhere else in it. -/
theorem C2_amended (ctx : Ctx) (cfg : DrawCfg) (node : FSNode)
    (relParts : List String) (pre : String) (d : Nat) (pats pats' : List String)
    (N : Nat) (its : List RItem) (full : List FSNode)
    (hwl : cfg.whitelist = none)
    (hmi : cfg.maxItems = some N)
    (hstop : depthStop cfg.depth d = false)
    (hext : extendPatterns cfg.respectGitignore cfg.gi node relParts pats =
      Except.ok pats')
    (hfull : full = (listEntries ctx cfg.gi node relParts pats' cfg.showAll
      cfg.extraExcludes none cfg.excludeDepth cfg.noFiles cfg.includePatterns
      cfg.includeFileTypes false).1)
    (hM : full.length > N)
    (hok : drawRec ctx cfg node relParts pre d pats = Except.ok its) :
    topEntries d its = full.take N ∧
      ∃ body, its = body ++ [RItem.trunc (full.length - N)
          (truncLine pre (full.length - N))] ∧
        ∀ it ∈ body, it.line ≠ truncLine pre (full.length - N) := by
  rw [drawRec_step_trunc ctx cfg node relParts pre d pats pats' N full hmi hstop hext
    hfull hM] at hok
  rw [show ((full.take N).filter fun e =>
      whitelistKeep cfg.rootParts cfg.whitelist (relParts ++ [e.name]) e) =
      full.take N from by
    rw [hwl]
    exact List.filter_eq_self.mpr fun a _ => rfl] at hok
  obtain ⟨h1, h2⟩ := drawChildren_shape ctx cfg _ relParts pre d pats' _ its hok
  exact ⟨h1, h2 (by omega)⟩

/-- Closed instance of `C2_amended`: with `max_items = 1` and no whitelist
the root `r` (files `a`, `b`) renders `a` followed by the
`"... and 1 more items"` line. -/
theorem C2_amended_witness :
    topEntries 0 [RItem.entry 0 ["a"] (FSNode.file "a" ⟨true, []⟩) "├─ a",
        RItem.trunc 1 (truncLine "" 1)] =
      [FSNode.file "a" ⟨true, []⟩, FSNode.file "b" ⟨true, []⟩].take 1 ∧
    ∃ body, [RItem.entry 0 ["a"] (FSNode.file "a" ⟨true, []⟩) "├─ a",
        RItem.trunc 1 (truncLine "" 1)] =
      body ++ [RItem.trunc 1 (truncLine "" 1)] ∧
      ∀ it ∈ body, it.line ≠ truncLine "" 1 :=
  C2_amended exCtx c2acfg c2fs [] "" 0 [] [] 1
    [RItem.entry 0 ["a"] (FSNode.file "a" ⟨true, []⟩) "├─ a",
      RItem.trunc 1 (truncLine "" 1)]
    [FSNode.file "a" ⟨true, []⟩, FSNode.file "b" ⟨true, []⟩]
    rfl rfl rfl rfl
    (by
      dsimp only [c2acfg, DrawCfg.gi]
      have hp : chainLE false (List.filter
          (passesFilters exCtx ⟨false, none⟩ [] [] false [] none false [] [])
          (iterDir c2fs)) = true := rfl
      rw [listEntries_eq_of_sorted none (pairwise_of_chainLE hp)]
      rfl)
    (by decide)
    (by
      rw [drawRec]
      rw [show extendPatterns c2acfg.respectGitignore c2acfg.gi c2fs [] [] =
        Except.ok [] from rfl]
      dsimp only [c2acfg, DrawCfg.gi]
      have hp : chainLE false (List.filter
          (passesFilters exCtx ⟨false, none⟩ [] [] false [] none false [] [])
          (iterDir c2fs)) = true := rfl
      rw [listEntries_eq_of_sorted (some 1) (pairwise_of_chainLE hp)]
      show drawChildren exCtx c2acfg [FSNode.file "a" ⟨true, []⟩] [] "" 0 [] 1 = _
      simp only [drawChildren.eq_2, drawChildren.eq_1]
      rfl)

/-- **C9.**  The truncated count is computed by `list_entries` before the
whitelist pruning of `draw_tree.rec`: with `max_items = N` and a
pre-whitelist listing `full` of `M > N` entries, the block ends in a single
truncation line reporting the pre-whitelist overflow `M - N` (whatever the
whitelist), the entries actually displayed at the block's level are the
whitelist-filter of `full.take N` — so fewer than `N` entries can be shown
even though the line is emitted — and every entry sorted beyond the first
`N` positions is dropped: it is neither displayed nor counted against the
whitelist. -/
theorem C9_trunc_pre_whitelist (ctx : Ctx) (cfg : DrawCfg) (node : FSNode)
    (relParts : List String) (pre : String) (d : Nat) (pats pats' : List String)
    (N : Nat) (its : List RItem) (full : List FSNode)
    (hmi : cfg.maxItems = some N)
    (hstop : depthStop cfg.depth d = false)
    (hext : extendPatterns cfg.respectGitignore cfg.gi node relParts pats =
      Except.ok pats')
    (hfull : full = (listEntries ctx cfg.gi node relParts pats' cfg.showAll
      cfg.extraExcludes none cfg.excludeDepth cfg.noFiles cfg.includePatterns
      cfg.includeFileTypes false).1)
    (hM : full.length > N)
    (hnd : full.Nodup)
    (hok : drawRec ctx cfg node relParts pre d pats = Except.ok its) :
    (∃ body, its = body ++ [RItem.trunc (full.length - N)
        (truncLine pre (full.length - N))] ∧
      ∀ it ∈ body, it.line ≠ truncLine pre (full.length - N)) ∧
    topEntries d its = (full.take N).filter (fun e =>
      whitelistKeep cfg.rootParts cfg.whitelist (relParts ++ [e.name]) e) ∧
    ∀ e ∈ full.drop N, e ∉ topEntries d its := by
  rw [drawRec_step_trunc ctx cfg node relParts pre d pats pats' N full hmi hstop hext
    hfull hM] at hok
  obtain ⟨h1, h2⟩ := drawChildren_shape ctx cfg _ relParts pre d pats' _ its hok
  refine ⟨h2 (by omega), h1, ?_⟩
  intro e he hmem
  rw [h1] at hmem
  exact List.disjoint_take_drop hnd (le_refl N)
    (List.mem_filter.mp hmem).1 he

/-- Closed instance of `C9_trunc_pre_whitelist` on the whitelisted
configuration `c2cfg`: the root's block is the bare truncation line — zero
entries displayed though `max_items = 1` — and the whitelisted file `b`,
sorted beyond position 1, is dropped without being shown. -/
theorem C9_witness :
    (∃ body, [RItem.trunc 1 (truncLine "" 1)] =
        body ++ [RItem.trunc 1 (truncLine "" 1)] ∧
      ∀ it ∈ body, it.line ≠ truncLine "" 1) ∧
    topEntries 0 [RItem.trunc 1 (truncLine "" 1)] =
      ([FSNode.file "a" ⟨true, []⟩, FSNode.file "b" ⟨true, []⟩].take 1).filter (fun e =>
        whitelistKeep c2cfg.rootParts c2cfg.whitelist ([] ++ [e.name]) e) ∧
    ∀ e ∈ [FSNode.file "a" ⟨true, []⟩, FSNode.file "b" ⟨true, []⟩].drop 1,
      e ∉ topEntries 0 [RItem.trunc 1 (truncLine "" 1)] :=
  C9_trunc_pre_whitelist exCtx c2cfg c2fs [] "" 0 [] [] 1
    [RItem.trunc 1 (truncLine "" 1)]
    [FSNode.file "a" ⟨true, []⟩, FSNode.file "b" ⟨true, []⟩]
    rfl rfl rfl
    (by
      dsimp only [c2cfg, DrawCfg.gi]
      have hp : chainLE false (List.filter
          (passesFilters exCtx ⟨false, none⟩ [] [] false [] none false [] [])
          (iterDir c2fs)) = true := rfl
      rw [listEntries_eq_of_sorted none (pairwise_of_chainLE hp)]
      rfl)
    (by decide)
    (by
      refine List.nodup_cons.mpr ⟨?_, List.nodup_singleton _⟩
      intro h
      rw [List.mem_singleton] at h
      injection h with h1 h2
      exact absurd h1 (by decide))
    (by
      rw [drawRec]
      rw [show extendPatterns c2cfg.respectGitignore c2cfg.gi c2fs [] [] =
        Except.ok [] from rfl]
      dsimp only [c2cfg, DrawCfg.gi]
      have hp : chainLE false (List.filter
          (passesFilters exCtx ⟨false, none⟩ [] [] false [] none false [] [])
          (iterDir c2fs)) = true := rfl
      rw [listEntries_eq_of_sorted (some 1) (pairwise_of_chainLE hp)]
      show drawChildren exCtx c2cfg [] [] "" 0 [] 1 = _
      rw [drawChildren.eq_1]
      rfl)

/-! ### C5: the self-zip guard -/

/-- When the filtered child list of the legacy `src/main.py` `list_entries`
is already in sort order the stable sort leaves it unchanged; used to
evaluate closed examples. -/
theorem mainListEntries_eq_of_sorted {ctx : Ctx} {gi : GitIgnoreMatcher} {node : FSNode}
    {parentRel spec : List String} {showAll : Bool} {extraIgnores : List String}
    (maxItems : Option Nat)
    (h : ((iterDir node).filter (mainPasses ctx gi spec parentRel showAll
      extraIgnores)).Pairwise (fun a b => entryLE false a b = true)) :
    mainListEntries ctx gi node parentRel spec showAll extraIgnores maxItems =
      (let flt := (iterDir node).filter (mainPasses ctx gi spec parentRel showAll
        extraIgnores)
      match maxItems with
      | some n => if flt.length > n then (flt.take n, flt.length - n) else (flt, 0)
      | none => (flt, 0)) := by
  unfold mainListEntries
  simp only [List.mergeSort_of_sorted h]

/-- Configuration for the C5 counterexample: the legacy `src/main.py`
`zip_project` with all filters off, zipping the root `r` into `r/out.zip`. -/
def c5mcfg : MainZipCfg := ⟨false, none, none, false, []⟩

/-- A root `r` containing a plain file `a` and the output archive
`out.zip` itself. -/
def c5fs : FSNode :=
  .dir "r" true [.file "a" ⟨true, []⟩, .file "out.zip" ⟨true, []⟩]

/-- **C5, counterexample.**  The claim says the zip renderer always
detects and skips the in-progress output zip when it lies inside the tree
being zipped.  The legacy renderer `src/main.py` `zip_project.rec` — one of
the claim's own cited sources — has no such guard: zipping the root `r`
into `r/out.zip`, it writes the archive's own relative path `out.zip` into
the archive. -/
theorem C5_counterexample :
    mainZipRec exCtx c5mcfg c5fs [] 0 [] = .ok [["a"], ["out.zip"]] ∧
    ["out.zip"] ∈ [["a"], ["out.zip"]] ∧
    ["r"] ++ ["out.zip"] = ["r", "out.zip"] := by
  refine ⟨?_, by decide, rfl⟩
  rw [mainZipRec]
  rw [show extendPatterns c5mcfg.respectGitignore c5mcfg.gi c5fs [] [] =
    Except.ok [] from rfl]
  dsimp only [c5mcfg, MainZipCfg.gi]
  have hp : chainLE false (List.filter
      (mainPasses exCtx ⟨false, none⟩ [] [] false [])
      (iterDir c5fs)) = true := rfl
  rw [mainListEntries_eq_of_sorted none (pairwise_of_chainLE hp)]
  show mainZipChildren exCtx c5mcfg
    [FSNode.file "a" ⟨true, []⟩, FSNode.file "out.zip" ⟨true, []⟩] [] 0 [] = _
  simp only [mainZipChildren.eq_2, mainZipChildren.eq_1]
  rfl

/-- **C5 (amended).**  The `ZippingService` renderer
(`zip_project_to_handle.rec`) does implement the guard: (a) no file whose
resolved path equals the output zip's resolved path is ever written into
the archive, at any depth of the traversal; and (b) when the loop meets
that entry it skips exactly it and continues with the remaining entries
unchanged — the condition is never fatal.  The legacy `src/main.py`
renderer lacks the guard (see the counterexample). -/
theorem C5_service_skips_self_zip (ctx : Ctx) (zcfg : ZipCfg) :
    (∀ node relParts rd pats written,
      zipRec ctx zcfg node relParts rd pats = Except.ok written →
      ∀ rel ∈ written, zcfg.rootParts ++ rel ≠ zcfg.zipResolved) ∧
    (∀ e rest relParts rd pats,
      zcfg.rootParts ++ (relParts ++ [e.name]) = zcfg.zipResolved →
      zipChildren ctx zcfg (e :: rest) relParts rd pats =
        zipChildren ctx zcfg rest relParts rd pats) := by
  constructor
  · intro node relParts rd pats
    refine zipRec.induct ctx zcfg
      (fun node relParts rd pats =>
        ∀ written, zipRec ctx zcfg node relParts rd pats = Except.ok written →
          ∀ rel ∈ written, zcfg.rootParts ++ rel ≠ zcfg.zipResolved)
      (fun entries relParts rd pats =>
        ∀ written, zipChildren ctx zcfg entries relParts rd pats = Except.ok written →
          ∀ rel ∈ written, zcfg.rootParts ++ rel ≠ zcfg.zipResolved)
      ?_ ?_ ?_ ?_ ?_ ?_ ?_ ?_ ?_ ?_ ?_ node relParts rd pats
    · intro node relParts rd pats hstop written h rel hrel
      rw [zipRec.eq_def, if_pos hstop] at h
      cases h
      cases hrel
    · intro node relParts rd pats hstop er hext written h
      rw [zipRec.eq_def, if_neg hstop, hext] at h
      cases h
    · intro node relParts rd pats hstop pats' hext p hIH written h
      rw [zipRec.eq_def, if_neg hstop, hext] at h
      exact hIH written h
    · intro relParts rd pats written h rel hrel
      rw [zipChildren.eq_1] at h
      cases h
      cases hrel
    · intro relParts rd pats e rest hzip hIH written h
      rw [zipChildren.eq_2, if_pos hzip] at h
      exact hIH written h
    · intro relParts rd pats e rest hzip hwl hIH written h
      rw [zipChildren.eq_2, if_neg hzip, if_pos hwl] at h
      exact hIH written h
    · intro relParts rd pats e rest hzip hwl hd er hsub hIH written h
      rw [zipChildren.eq_2, if_neg hzip, if_neg hwl, if_pos hd, hsub] at h
      cases h
    · intro relParts rd pats e rest hzip hwl hd sub hsub er htail hIH1 hIH2 written h
      rw [zipChildren.eq_2, if_neg hzip, if_neg hwl, if_pos hd, hsub, htail] at h
      cases h
    · intro relParts rd pats e rest hzip hwl hd sub hsub tail htail hIH1 hIH2 written h
      rw [zipChildren.eq_2, if_neg hzip, if_neg hwl, if_pos hd, hsub, htail] at h
      cases h
      intro rel hrel
      rcases List.mem_append.mp hrel with hs | ht
      · exact hIH1 sub hsub rel hs
      · exact hIH2 tail htail rel ht
    · intro relParts rd pats e rest hzip hwl hd er htail hIH written h
      rw [zipChildren.eq_2, if_neg hzip, if_neg hwl, if_neg hd, htail] at h
      cases h
    · intro relParts rd pats e rest hzip hwl hd tail htail hIH written h
      rw [zipChildren.eq_2, if_neg hzip, if_neg hwl, if_neg hd, htail] at h
      cases h
      intro rel hrel
      rcases List.mem_cons.mp hrel with rfl | ht
      · exact hzip
      · exact hIH tail htail rel ht
  · intro e rest relParts rd pats hzip
    rw [zipChildren.eq_2, if_pos hzip]

/-- `ZippingService` configuration zipping the root `r` into `r/out.zip`
with all filters off. -/
def c5zcfg : ZipCfg :=
  ⟨["r"], false, none, none, none, false, [], false, none, [], [], ["r", "out.zip"]⟩

/-- Closed instance of `C5_service_skips_self_zip` on `c5fs`: the service
renderer writes only `a` — never `out.zip`, the archive itself — and the
loop meeting `out.zip` skips it and continues with the remaining entries. -/
theorem C5_witness :
    (∀ rel ∈ [["a"]], c5zcfg.rootParts ++ rel ≠ c5zcfg.zipResolved) ∧
    zipChildren exCtx c5zcfg
        [FSNode.file "out.zip" ⟨true, []⟩, FSNode.file "a" ⟨true, []⟩] [] 0 [] =
      zipChildren exCtx c5zcfg [FSNode.file "a" ⟨true, []⟩] [] 0 [] :=
  ⟨fun rel hrel => (C5_service_skips_self_zip exCtx c5zcfg).1 c5fs [] 0 [] [["a"]]
    (by
      rw [zipRec]
      rw [show extendPatterns c5zcfg.respectGitignore c5zcfg.gi c5fs [] [] =
        Except.ok [] from rfl]
      dsimp only [c5zcfg, ZipCfg.gi]
      have hp : chainLE false (List.filter
          (passesFilters exCtx ⟨false, none⟩ [] [] false [] none false [] [])
          (iterDir c5fs)) = true := rfl
      rw [listEntries_eq_of_sorted none (pairwise_of_chainLE hp)]
      show zipChildren exCtx c5zcfg
        [FSNode.file "a" ⟨true, []⟩, FSNode.file "out.zip" ⟨true, []⟩] [] 0 [] = _
      simp only [zipChildren.eq_2, zipChildren.eq_1]
      rfl)
    rel hrel,
   (C5_service_skips_self_zip exCtx c5zcfg).2
    (FSNode.file "out.zip" ⟨true, []⟩) [FSNode.file "a" ⟨true, []⟩] [] 0 [] rfl⟩

/-! ### C8: value semantics of the pattern stack -/

/-- A directory whose `.gitignore` contributes the single pattern `x`. -/
def c8fs : FSNode := .dir "p" true [.file ".gitignore" ⟨true, ["x"]⟩]

/-- **C8.**  Value semantics of the `.gitignore` pattern stack across the
recursion.  (a) The per-visit extension step only grows the incoming list
by appending: whatever a directory's `.gitignore` contributes, the parent's
patterns are a prefix of what the visit passes down.  (b) Sibling
isolation: in the child loop, the recursive render of a directory entry
receives the block's own pattern list `pats`, and the continuation on the
remaining siblings is `drawChildren … rest … pats …` — the very same
`pats`, not anything extended inside the entry's subtree.  Consequently,
replacing one sibling's entire subtree (same name, still a directory) with
another changes that sibling's own sub-block from `sub` to `sub'` but the
remaining siblings render to the identical `tail` in both runs: patterns
collected inside one sibling's subtree are never visible in another's. -/
theorem C8_patterns_value_semantics :
    (∀ (rg : Bool) (gi : GitIgnoreMatcher) (node : FSNode)
      (rel pats pats' : List String),
      extendPatterns rg gi node rel pats = Except.ok pats' →
      ∃ newPats, pats' = pats ++ newPats) ∧
    (∀ (ctx : Ctx) (cfg : DrawCfg) (n : String) (ch ch' rest : List FSNode)
      (relParts : List String) (pre : String) (d : Nat) (pats : List String)
      (t : Nat) (sub sub' tail : List RItem),
      drawRec ctx cfg (.dir n true ch) (relParts ++ [n])
        (pre ++ (if rest.isEmpty && t == 0 then SPACE else VERT)) (d + 1) pats =
        Except.ok sub →
      drawRec ctx cfg (.dir n true ch') (relParts ++ [n])
        (pre ++ (if rest.isEmpty && t == 0 then SPACE else VERT)) (d + 1) pats =
        Except.ok sub' →
      drawChildren ctx cfg rest relParts pre d pats t = Except.ok tail →
      drawChildren ctx cfg (.dir n true ch :: rest) relParts pre d pats t =
        Except.ok (.entry d (relParts ++ [n]) (.dir n true ch)
          (entryLine ctx cfg.emoji pre
            (if rest.isEmpty && t == 0 then LAST else BRANCH) (.dir n true ch)) ::
            (sub ++ tail)) ∧
      drawChildren ctx cfg (.dir n true ch' :: rest) relParts pre d pats t =
        Except.ok (.entry d (relParts ++ [n]) (.dir n true ch')
          (entryLine ctx cfg.emoji pre
            (if rest.isEmpty && t == 0 then LAST else BRANCH) (.dir n true ch')) ::
            (sub' ++ tail))) := by
  constructor
  · intro rg gi node rel pats pats' h
    unfold extendPatterns at h
    by_cases hc : (rg && gi.withinDepth rel) = true
    · rw [if_pos hc] at h
      cases hgc : gitignoreChild node with
      | none =>
        rw [hgc] at h
        exact ⟨[], by rw [List.append_nil]; exact (Except.ok.inj h).symm⟩
      | some fd =>
        rw [hgc] at h
        dsimp only at h
        by_cases hr : fd.readable = true
        · rw [if_pos hr] at h
          exact ⟨_, (Except.ok.inj h).symm⟩
        · rw [if_neg hr] at h
          cases h
    · rw [if_neg hc] at h
      exact ⟨[], by rw [List.append_nil]; exact (Except.ok.inj h).symm⟩
  · intro ctx cfg n ch ch' rest relParts pre d pats t sub sub' tail hsub hsub' htail
    constructor
    · rw [drawChildren.eq_2]
      dsimp only [FSNode.isDir, FSNode.name]
      rw [if_pos rfl, hsub, htail]
    · rw [drawChildren.eq_2]
      dsimp only [FSNode.isDir, FSNode.name]
      rw [if_pos rfl, hsub', htail]

/-- Closed instance of `C8_patterns_value_semantics`: the `.gitignore` of
`c8fs` extends `[]` to `["x"]` by appending; and swapping the subtree of
the sibling directory `s` (empty vs. containing `f`) leaves the other
sibling `g`'s rendered line untouched in the block. -/
theorem C8_witness :
    (∃ newPats, ["x"] = ([] : List String) ++ newPats) ∧
    (drawChildren exCtx c7cfg [FSNode.dir "s" true [], FSNode.file "g" ⟨true, []⟩]
        [] "" 0 [] 0 =
      Except.ok [RItem.entry 0 ["s"] (FSNode.dir "s" true []) "├─ s/",
        RItem.entry 0 ["g"] (FSNode.file "g" ⟨true, []⟩) "└─ g"] ∧
    drawChildren exCtx c7cfg [FSNode.dir "s" true [FSNode.file "f" ⟨true, []⟩],
        FSNode.file "g" ⟨true, []⟩] [] "" 0 [] 0 =
      Except.ok [RItem.entry 0 ["s"] (FSNode.dir "s" true [FSNode.file "f" ⟨true, []⟩])
          "├─ s/",
        RItem.entry 1 ["s", "f"] (FSNode.file "f" ⟨true, []⟩) "│  └─ f",
        RItem.entry 0 ["g"] (FSNode.file "g" ⟨true, []⟩) "└─ g"]) :=
  ⟨C8_patterns_value_semantics.1 true ⟨true, none⟩ c8fs [] [] ["x"] rfl,
   C8_patterns_value_semantics.2 exCtx c7cfg "s" [] [FSNode.file "f" ⟨true, []⟩]
    [FSNode.file "g" ⟨true, []⟩] [] "" 0 [] 0
    [] [RItem.entry 1 ["s", "f"] (FSNode.file "f" ⟨true, []⟩) "│  └─ f"]
    [RItem.entry 0 ["g"] (FSNode.file "g" ⟨true, []⟩) "└─ g"]
    (by
      show drawRec exCtx c7cfg (FSNode.dir "s" true []) ["s"] "│  " 1 [] = Except.ok []
      rw [drawRec]
      rw [show extendPatterns c7cfg.respectGitignore c7cfg.gi (FSNode.dir "s" true [])
        ["s"] [] = Except.ok [] from rfl]
      dsimp only [c7cfg, DrawCfg.gi]
      have hp : chainLE false (List.filter
          (passesFilters exCtx ⟨false, none⟩ [] ["s"] false [] none false [] [])
          (iterDir (FSNode.dir "s" true []))) = true := rfl
      rw [listEntries_eq_of_sorted none (pairwise_of_chainLE hp)]
      show drawChildren exCtx c7cfg [] ["s"] "│  " 1 [] 0 = _
      rw [drawChildren.eq_1]
      rfl)
    (by
      show drawRec exCtx c7cfg (FSNode.dir "s" true [FSNode.file "f" ⟨true, []⟩])
        ["s"] "│  " 1 [] =
        Except.ok [RItem.entry 1 ["s", "f"] (FSNode.file "f" ⟨true, []⟩) "│  └─ f"]
      rw [drawRec]
      rw [show extendPatterns c7cfg.respectGitignore c7cfg.gi
        (FSNode.dir "s" true [FSNode.file "f" ⟨true, []⟩]) ["s"] [] =
        Except.ok [] from rfl]
      dsimp only [c7cfg, DrawCfg.gi]
      have hp : chainLE false (List.filter
          (passesFilters exCtx ⟨false, none⟩ [] ["s"] false [] none false [] [])
          (iterDir (FSNode.dir "s" true [FSNode.file "f" ⟨true, []⟩]))) = true := rfl
      rw [listEntries_eq_of_sorted none (pairwise_of_chainLE hp)]
      show drawChildren exCtx c7cfg [FSNode.file "f" ⟨true, []⟩] ["s"] "│  " 1 [] 0 = _
      simp only [drawChildren.eq_2, drawChildren.eq_1]
      rfl)
    (by
      simp only [drawChildren.eq_2, drawChildren.eq_1]
      rfl)⟩

/-! ### C4: the zip archive versus the displayed tree -/

/-- The root-relative paths of the files displayed in a rendered block, in
order: the arcnames the zip renderer would write. -/
def filesVisited : List RItem → List (List String)
  | [] => []
  | .entry _ r n _ :: rest =>
    if n.isFile then r :: filesVisited rest else filesVisited rest
  | .trunc _ _ :: rest => filesVisited rest

theorem filesVisited_append (a b : List RItem) :
    filesVisited (a ++ b) = filesVisited a ++ filesVisited b := by
  induction a with
  | nil => rfl
  | cons x rest ih =>
    cases x with
    | entry d r n l =>
      by_cases hf : n.isFile = true
      · simp [filesVisited, hf, ih]
      · simp [filesVisited, hf, ih]
    | trunc t l => simp [filesVisited, ih]

theorem except_map_eq_ok {α β : Type} {f : α → β} {x : Except Unit α} {y : β} :
    Except.map f x = Except.ok y ↔ ∃ l, x = Except.ok l ∧ f l = y := by
  cases x with
  | error e => simp [Except.map]
  | ok l => simp [Except.map]

theorem except_map_eq_error {α β : Type} {f : α → β} {x : Except Unit α} {u : Unit} :
    Except.map f x = Except.error u ↔ x = Except.error u := by
  cases x with
  | error e => simp [Except.map]
  | ok l => simp [Except.map]

/-- The `draw_tree` configuration matching a `ZippingService` run: the same
filters, with `max_items = None` as hard-wired by the zip recursion. -/
def zipDrawCfg (zcfg : ZipCfg) (emoji : Bool) : DrawCfg :=
  ⟨zcfg.rootParts, zcfg.depth, zcfg.showAll, zcfg.extraExcludes, zcfg.respectGitignore,
    zcfg.gitignoreDepth, none, zcfg.excludeDepth, zcfg.noFiles, emoji, zcfg.whitelist,
    zcfg.includePatterns, zcfg.includeFileTypes⟩

/-- As long as no traversed entry resolves to the output zip itself, the
zip traversal writes exactly the root-relative paths of the files the tree
renderer displays under the matching configuration, in display order. -/
theorem zip_eq_drawRec (ctx : Ctx) (zcfg : ZipCfg) (emoji : Bool)
    (hguard : ∀ rel : List String, zcfg.rootParts ++ rel ≠ zcfg.zipResolved)
    (node : FSNode) (relParts : List String) (rd : Nat) (pats : List String) :
    ∀ pre, zipRec ctx zcfg node relParts rd pats =
      Except.map filesVisited
        (drawRec ctx (zipDrawCfg zcfg emoji) node relParts pre rd pats) := by
  refine zipRec.induct ctx zcfg
    (fun node relParts rd pats => ∀ pre,
      zipRec ctx zcfg node relParts rd pats =
        Except.map filesVisited
          (drawRec ctx (zipDrawCfg zcfg emoji) node relParts pre rd pats))
    (fun entries relParts rd pats => ∀ pre,
      zipChildren ctx zcfg entries relParts rd pats =
        Except.map filesVisited
          (drawChildren ctx (zipDrawCfg zcfg emoji)
            (entries.filter fun e =>
              whitelistKeep zcfg.rootParts zcfg.whitelist (relParts ++ [e.name]) e)
            relParts pre rd pats 0))
    ?_ ?_ ?_ ?_ ?_ ?_ ?_ ?_ ?_ ?_ ?_ node relParts rd pats
  · -- depth cutoff on both sides
    intro node relParts rd pats hstop pre
    rw [zipRec.eq_def, if_pos hstop, drawRec.eq_def,
      if_pos (show depthStop (zipDrawCfg zcfg emoji).depth rd = true from hstop)]
    rfl
  · -- .gitignore read error on both sides
    intro node relParts rd pats hstop er hext pre
    rw [zipRec.eq_def, if_neg hstop, drawRec.eq_def,
      if_neg (show ¬ depthStop (zipDrawCfg zcfg emoji).depth rd = true from hstop)]
    dsimp only [zipDrawCfg, DrawCfg.gi, ZipCfg.gi] at hext ⊢
    rw [hext]
    rfl
  · -- successful listing on both sides
    intro node relParts rd pats hstop pats' hext p hIH pre
    rw [zipRec.eq_def, if_neg hstop, drawRec.eq_def,
      if_neg (show ¬ depthStop (zipDrawCfg zcfg emoji).depth rd = true from hstop)]
    dsimp only [zipDrawCfg, DrawCfg.gi, ZipCfg.gi] at hext hIH ⊢
    rw [hext]
    dsimp only
    rw [show (listEntries ctx ⟨zcfg.respectGitignore, zcfg.gitignoreDepth⟩ node relParts
      pats' zcfg.showAll zcfg.extraExcludes none zcfg.excludeDepth zcfg.noFiles
      zcfg.includePatterns zcfg.includeFileTypes false).2 = 0 from rfl]
    exact hIH pre
  · -- empty entry list
    intro relParts rd pats pre
    rw [zipChildren.eq_1, List.filter_nil, drawChildren.eq_1]
    rfl
  · -- the self-zip entry cannot occur under the guard hypothesis
    intro relParts rd pats e rest hzip hIH pre
    exact absurd hzip (hguard _)
  · -- entry dropped by the whitelist
    intro relParts rd pats e rest hzip hwl hIH pre
    rw [zipChildren.eq_2, if_neg hzip, if_pos hwl,
      List.filter_cons_of_neg (by simpa using hwl)]
    exact hIH pre
  · -- directory entry whose recursive zip errors
    intro relParts rd pats e rest hzip hwl hd er hsub hIH1 pre
    rw [zipChildren.eq_2, if_neg hzip, if_neg hwl, if_pos hd, hsub,
      List.filter_cons_of_pos (by simpa using hwl)]
    rw [drawChildren.eq_2, if_pos hd]
    have h1 := (hIH1 (pre ++ (if (List.filter (fun e => whitelistKeep zcfg.rootParts
      zcfg.whitelist (relParts ++ [e.name]) e) rest).isEmpty && 0 == 0 then SPACE
        else VERT))).symm.trans hsub
    rw [except_map_eq_error] at h1
    rw [h1]
    rfl
  · -- directory fine, later sibling errors
    intro relParts rd pats e rest hzip hwl hd sub hsub er htail hIH1 hIH2 pre
    rw [zipChildren.eq_2, if_neg hzip, if_neg hwl, if_pos hd, hsub, htail,
      List.filter_cons_of_pos (by simpa using hwl)]
    rw [drawChildren.eq_2, if_pos hd]
    obtain ⟨subd, hsubd, hfiles⟩ := except_map_eq_ok.mp ((hIH1 (pre ++
      (if (List.filter (fun e => whitelistKeep zcfg.rootParts zcfg.whitelist
        (relParts ++ [e.name]) e) rest).isEmpty && 0 == 0 then SPACE
          else VERT))).symm.trans hsub)
    rw [hsubd]
    have h2 := (hIH2 pre).symm.trans htail
    rw [except_map_eq_error] at h2
    rw [h2]
    rfl
  · -- directory and tail both fine
    intro relParts rd pats e rest hzip hwl hd sub hsub tail htail hIH1 hIH2 pre
    rw [zipChildren.eq_2, if_neg hzip, if_neg hwl, if_pos hd, hsub, htail,
      List.filter_cons_of_pos (by simpa using hwl)]
    rw [drawChildren.eq_2, if_pos hd]
    obtain ⟨subd, hsubd, hfiles⟩ := except_map_eq_ok.mp ((hIH1 (pre ++
      (if (List.filter (fun e => whitelistKeep zcfg.rootParts zcfg.whitelist
        (relParts ++ [e.name]) e) rest).isEmpty && 0 == 0 then SPACE
          else VERT))).symm.trans hsub)
    obtain ⟨taild, htaild, hfilest⟩ := except_map_eq_ok.mp ((hIH2 pre).symm.trans htail)
    rw [hsubd, htaild]
    have hef : e.isFile = false := by
      cases e
      · exact Bool.noConfusion hd
      · rfl
    simp [Except.map, filesVisited, hef, filesVisited_append, hfiles, hfilest]
  · -- file entry, later sibling errors
    intro relParts rd pats e rest hzip hwl hd er htail hIH pre
    rw [zipChildren.eq_2, if_neg hzip, if_neg hwl, if_neg hd, htail,
      List.filter_cons_of_pos (by simpa using hwl)]
    rw [drawChildren.eq_2, if_neg hd]
    have h2 := (hIH pre).symm.trans htail
    rw [except_map_eq_error] at h2
    rw [h2]
    rfl
  · -- file entry written, tail fine
    intro relParts rd pats e rest hzip hwl hd tail htail hIH pre
    rw [zipChildren.eq_2, if_neg hzip, if_neg hwl, if_neg hd, htail,
      List.filter_cons_of_pos (by simpa using hwl)]
    rw [drawChildren.eq_2, if_neg hd]
    obtain ⟨taild, htaild, hfilest⟩ := except_map_eq_ok.mp ((hIH pre).symm.trans htail)
    rw [htaild]
    have hef : e.isFile = true := by
      cases e
      · rfl
      · exact absurd rfl hd
    simp [Except.map, filesVisited, hef, hfilest]

/-- **C4, counterexample.**  The claim's round-trip equality is stated for
every configuration, but it fails exactly when the output zip's resolved
path lies inside the tree being zipped: zipping the root `r` into
`r/out.zip`, the service renderer (by design — see C5) skips `out.zip` and
writes only `a`, while the tree renderer under the matching configuration
displays both `a` and `out.zip`.  The written set and the displayed file
set differ. -/
theorem C4_counterexample :
    zipRec exCtx c5zcfg c5fs [] 0 [] = .ok [["a"]] ∧
    drawRec exCtx (zipDrawCfg c5zcfg true) c5fs [] "" 0 [] =
      .ok [.entry 0 ["a"] (.file "a" ⟨true, []⟩) "├─ a",
        .entry 0 ["out.zip"] (.file "out.zip" ⟨true, []⟩) "└─ out.zip"] ∧
    filesVisited [.entry 0 ["a"] (.file "a" ⟨true, []⟩) "├─ a",
        .entry 0 ["out.zip"] (.file "out.zip" ⟨true, []⟩) "└─ out.zip"] =
      [["a"], ["out.zip"]] ∧
    [["a"]] ≠ [["a"], ["out.zip"]] := by
  refine ⟨?_, ?_, rfl, by decide⟩
  · rw [zipRec]
    rw [show extendPatterns c5zcfg.respectGitignore c5zcfg.gi c5fs [] [] =
      Except.ok [] from rfl]
    dsimp only [c5zcfg, ZipCfg.gi]
    have hp : chainLE false (List.filter
        (passesFilters exCtx ⟨false, none⟩ [] [] false [] none false [] [])
        (iterDir c5fs)) = true := rfl
    rw [listEntries_eq_of_sorted none (pairwise_of_chainLE hp)]
    show zipChildren exCtx c5zcfg
      [FSNode.file "a" ⟨true, []⟩, FSNode.file "out.zip" ⟨true, []⟩] [] 0 [] = _
    simp only [zipChildren.eq_2, zipChildren.eq_1]
    rfl
  · rw [drawRec]
    rw [show extendPatterns (zipDrawCfg c5zcfg true).respectGitignore
      (zipDrawCfg c5zcfg true).gi c5fs [] [] = Except.ok [] from rfl]
    dsimp only [c5zcfg, zipDrawCfg, DrawCfg.gi]
    have hp : chainLE false (List.filter
        (passesFilters exCtx ⟨false, none⟩ [] [] false [] none false [] [])
        (iterDir c5fs)) = true := rfl
    rw [listEntries_eq_of_sorted none (pairwise_of_chainLE hp)]
    show drawChildren exCtx (zipDrawCfg c5zcfg true)
      [FSNode.file "a" ⟨true, []⟩, FSNode.file "out.zip" ⟨true, []⟩] [] "" 0 [] 0 = _
    simp only [drawChildren.eq_2, drawChildren.eq_1]
    rfl

/-- **C4 (amended).**  Provided no traversed entry resolves to the output
zip itself, the zip traversal writes exactly the root-relative paths of
the files the tree renderer displays under the same filter configuration
with `max_items = None` (which the zip recursion hard-wires), in display
order: extracting the archive reproduces the displayed file set. -/
theorem C4_zip_matches_display (ctx : Ctx) (zcfg : ZipCfg) (emoji : Bool)
    (node : FSNode) (relParts : List String) (rd : Nat) (pats : List String)
    (pre : String) (its : List RItem)
    (hguard : ∀ rel : List String, zcfg.rootParts ++ rel ≠ zcfg.zipResolved)
    (hok : drawRec ctx (zipDrawCfg zcfg emoji) node relParts pre rd pats =
      Except.ok its) :
    zipRec ctx zcfg node relParts rd pats = Except.ok (filesVisited its) := by
  rw [zip_eq_drawRec ctx zcfg emoji hguard node relParts rd pats pre, hok]
  rfl

/-- `ZippingService` configuration matching `c5zcfg` except that the output
archive `/z/out.zip` lies outside the root `r`. -/
def c4zcfg : ZipCfg :=
  ⟨["r"], false, none, none, none, false, [], false, none, [], [], ["z", "out.zip"]⟩

/-- Closed instance of `C4_zip_matches_display`: with the archive outside
the tree, zipping the root `r` (files `a`, `out.zip` — the latter now an
ordinary file) writes exactly the two files the renderer displays. -/
theorem C4_witness :
    zipRec exCtx c4zcfg c5fs [] 0 [] = .ok [["a"], ["out.zip"]] :=
  C4_zip_matches_display exCtx c4zcfg true c5fs [] 0 [] ""
    [.entry 0 ["a"] (.file "a" ⟨true, []⟩) "├─ a",
      .entry 0 ["out.zip"] (.file "out.zip" ⟨true, []⟩) "└─ out.zip"]
    (by
      intro rel h
      injection h with h1 h2
      exact absurd h1 (by decide))
    (by
      rw [drawRec]
      rw [show extendPatterns (zipDrawCfg c4zcfg true).respectGitignore
        (zipDrawCfg c4zcfg true).gi c5fs [] [] = Except.ok [] from rfl]
      dsimp only [c4zcfg, zipDrawCfg, DrawCfg.gi]
      have hp : chainLE false (List.filter
          (passesFilters exCtx ⟨false, none⟩ [] [] false [] none false [] [])
          (iterDir c5fs)) = true := rfl
      rw [listEntries_eq_of_sorted none (pairwise_of_chainLE hp)]
      show drawChildren exCtx (zipDrawCfg c4zcfg true)
        [FSNode.file "a" ⟨true, []⟩, FSNode.file "out.zip" ⟨true, []⟩] [] "" 0 [] 0 = _
      simp only [drawChildren.eq_2, drawChildren.eq_1]
      rfl)

end Gitree
